import Mathlib

/-!
Shallow embedding of django-dagcategory (`src/dagcategory/models.py`).

A `Node` models one stored row of the abstract `DAGCategory` model; a
`Store` is the database table.  Query methods of `DAGCategoryManager` and
`DAGCategory` become pure functions over a `Store`; `save` becomes a
function returning the database after the attempted save together with the
error it raised, if any.  Python string primitives used by the source
(`str.split`, `str.count`, `str.join`, lexicographic comparison) are
modelled on character lists.
-/

set_option maxHeartbeats 1000000
set_option linter.unusedVariables false

/-- One stored `DAGCategory` row.  `pk` is the primary key, `sites` the ids
of the attached `Site` rows (the `sites` many-to-many field), `parent` the
nullable self-referencing foreign key, `path` the materialized path column,
`order` the `PositiveIntegerField` used by the default `Meta` ordering. -/
structure Node where
  pk : Nat
  name : String
  slug : String
  sites : List Nat
  parent : Option Nat
  path : String
  order : Nat
deriving Repr, DecidableEq

/-- The database table: the list of stored rows. -/
abbrev Store := List Node

/-- `DAGCategory.DELIMETER`. -/
def DELIMETER : String := "::"

/-- Fetch a row by primary key (a foreign-key dereference, `get(pk=...)`). -/
def getNode (s : Store) (pk : Nat) : Option Node :=
  s.find? (fun m => m.pk == pk)

/-- First occurrence of the separator `c :: cs` in a character list: the
characters strictly before it and the characters strictly after it.  This is
the scanning step shared by Python `str.split` and `str.count`. -/
def splitFirst (c : Char) (cs : List Char) : List Char → Option (List Char × List Char)
  | [] => none
  | a :: s =>
    if (c :: cs).isPrefixOf (a :: s) then some ([], s.drop cs.length)
    else
      match splitFirst c cs s with
      | some (pre, post) => some (a :: pre, post)
      | none => none

theorem splitFirst_post_lt {c : Char} {cs : List Char} :
    ∀ {s pre post : List Char}, splitFirst c cs s = some (pre, post) →
      post.length < s.length := by
  intro s
  induction s with
  | nil => intro pre post h; simp [splitFirst] at h
  | cons a s ih =>
    intro pre post h
    rw [splitFirst] at h
    by_cases hp : (c :: cs).isPrefixOf (a :: s)
    · rw [if_pos hp] at h
      obtain ⟨h1, h2⟩ := Prod.mk.injEq .. ▸ Option.some.injEq .. ▸ h
      subst h2
      have hd : (s.drop cs.length).length ≤ s.length := by
        rw [List.length_drop]; omega
      simpa using Nat.lt_succ_of_le hd
    · rw [if_neg hp] at h
      cases heq : splitFirst c cs s with
      | none => rw [heq] at h; exact absurd h (by simp)
      | some pq =>
        obtain ⟨p, q⟩ := pq
        rw [heq] at h
        obtain ⟨h1, h2⟩ := Prod.mk.injEq .. ▸ Option.some.injEq .. ▸ h
        subst h2
        exact Nat.lt_succ_of_lt (ih heq)

/-- Fuel-indexed worker for `splitOnChars`: each cut strictly shortens the
remainder, so `s.length` fuel is always enough and the fuel is a pure
termination device (see `splitOnChars_eq`). -/
def splitOnCharsF (c : Char) (cs : List Char) : Nat → List Char → List (List Char)
  | 0, s => [s]
  | fuel + 1, s =>
    match splitFirst c cs s with
    | none => [s]
    | some (pre, post) => pre :: splitOnCharsF c cs fuel post

/-- Python `str.split(sep)` for a nonempty separator `c :: cs`, on character
lists: repeatedly cut at the first occurrence. -/
def splitOnChars (c : Char) (cs : List Char) (s : List Char) : List (List Char) :=
  splitOnCharsF c cs s.length s

/-- Fuel-indexed worker for `countOcc`, same shape as `splitOnCharsF`. -/
def countOccF (c : Char) (cs : List Char) : Nat → List Char → Nat
  | 0, _ => 0
  | fuel + 1, s =>
    match splitFirst c cs s with
    | none => 0
    | some (_, post) => countOccF c cs fuel post + 1

/-- Python `str.count(sub)` for a nonempty `sub`: the number of
non-overlapping occurrences, scanning left to right. -/
def countOcc (c : Char) (cs : List Char) (s : List Char) : Nat :=
  countOccF c cs s.length s

theorem splitOnCharsF_fuel {c : Char} {cs : List Char} :
    ∀ (fuel fuel' : Nat) (s : List Char), s.length ≤ fuel → s.length ≤ fuel' →
      splitOnCharsF c cs fuel s = splitOnCharsF c cs fuel' s := by
  intro fuel
  induction fuel with
  | zero =>
    intro fuel' s hs hs'
    have hnil : s = [] := List.eq_nil_of_length_eq_zero (Nat.le_zero.mp hs)
    subst hnil
    cases fuel' <;> simp [splitOnCharsF, splitFirst]
  | succ fuel ih =>
    intro fuel' s hs hs'
    cases fuel' with
    | zero =>
      have hnil : s = [] := List.eq_nil_of_length_eq_zero (Nat.le_zero.mp hs')
      subst hnil
      simp [splitOnCharsF, splitFirst]
    | succ fuel' =>
      simp only [splitOnCharsF]
      cases hsp : splitFirst c cs s with
      | none => rfl
      | some pq =>
        obtain ⟨pre, post⟩ := pq
        have hlt := splitFirst_post_lt hsp
        have h1 : post.length ≤ fuel := by omega
        have h2 : post.length ≤ fuel' := by omega
        simp only [ih fuel' post h1 h2]

theorem countOccF_fuel {c : Char} {cs : List Char} :
    ∀ (fuel fuel' : Nat) (s : List Char), s.length ≤ fuel → s.length ≤ fuel' →
      countOccF c cs fuel s = countOccF c cs fuel' s := by
  intro fuel
  induction fuel with
  | zero =>
    intro fuel' s hs hs'
    have hnil : s = [] := List.eq_nil_of_length_eq_zero (Nat.le_zero.mp hs)
    subst hnil
    cases fuel' <;> simp [countOccF, splitFirst]
  | succ fuel ih =>
    intro fuel' s hs hs'
    cases fuel' with
    | zero =>
      have hnil : s = [] := List.eq_nil_of_length_eq_zero (Nat.le_zero.mp hs')
      subst hnil
      simp [countOccF, splitFirst]
    | succ fuel' =>
      simp only [countOccF]
      cases hsp : splitFirst c cs s with
      | none => rfl
      | some pq =>
        obtain ⟨pre, post⟩ := pq
        have hlt := splitFirst_post_lt hsp
        have h1 : post.length ≤ fuel := by omega
        have h2 : post.length ≤ fuel' := by omega
        simp only [ih fuel' post h1 h2]

/-- The defining equation of Python split, fuel eliminated. -/
theorem splitOnChars_eq (c : Char) (cs : List Char) (s : List Char) :
    splitOnChars c cs s =
      match splitFirst c cs s with
      | none => [s]
      | some (pre, post) => pre :: splitOnChars c cs post := by
  show splitOnCharsF c cs s.length s = _
  cases hl : s.length with
  | zero =>
    have hnil : s = [] := List.eq_nil_of_length_eq_zero hl
    subst hnil
    simp [splitOnCharsF, splitFirst]
  | succ m =>
    simp only [splitOnCharsF]
    cases hsp : splitFirst c cs s with
    | none => rfl
    | some pq =>
      obtain ⟨pre, post⟩ := pq
      have hlt := splitFirst_post_lt hsp
      show pre :: splitOnCharsF c cs m post = pre :: splitOnCharsF c cs post.length post
      rw [splitOnCharsF_fuel m post.length post (by omega) le_rfl]

/-- The defining equation of Python count, fuel eliminated. -/
theorem countOcc_eq (c : Char) (cs : List Char) (s : List Char) :
    countOcc c cs s =
      match splitFirst c cs s with
      | none => 0
      | some (pre, post) => countOcc c cs post + 1 := by
  show countOccF c cs s.length s = _
  cases hl : s.length with
  | zero =>
    have hnil : s = [] := List.eq_nil_of_length_eq_zero hl
    subst hnil
    simp [countOccF, splitFirst]
  | succ m =>
    simp only [countOccF]
    cases hsp : splitFirst c cs s with
    | none => rfl
    | some pq =>
      obtain ⟨pre, post⟩ := pq
      have hlt := splitFirst_post_lt hsp
      show countOccF c cs m post + 1 = countOccF c cs post.length post + 1
      rw [countOccF_fuel m post.length post (by omega) le_rfl]

/-- Python `str.split(sep)`.  The source only splits on `'::'` and `'/'`;
an empty separator raises in Python and never occurs here. -/
def pySplit (s sep : String) : List String :=
  match sep.data with
  | [] => [s]
  | c :: cs => (splitOnChars c cs s.data).map (fun l => String.mk l)

/-- Python `str.count(sub)` for the nonempty patterns used by the source. -/
def pyCount (s sub : String) : Nat :=
  match sub.data with
  | [] => 0
  | c :: cs => countOcc c cs s.data

/-- Python `DELIMETER.join(items)`. -/
def joinDelim : List String → String
  | [] => ""
  | [a] => a
  | a :: rest => a ++ DELIMETER ++ joinDelim rest

/-- `DAGCategory.depth`: `self.path.count(self.DELIMETER)`. -/
def Node.depth (n : Node) : Nat := pyCount n.path DELIMETER

/-- Lexicographic comparison of character lists by code point, as SQL
`ORDER BY path` and Python compare strings. -/
def lexLt : List Char → List Char → Bool
  | [], [] => false
  | [], _ :: _ => true
  | _ :: _, [] => false
  | a :: as, b :: bs => if a < b then true else if b < a then false else lexLt as bs

/-- Row comparator for `order_by('path')`. -/
def pathLe (m n : Node) : Bool := lexLt m.path.data n.path.data || m.path == n.path

/-- Row comparator for `order_by('-path')`. -/
def pathGe (m n : Node) : Bool := pathLe n m

/-- `DAGCategoryManager.live`: `self.filter(sites__id=settings.SITE_ID)`.
The parameter `siteId` plays the role of the ambient `settings.SITE_ID`. -/
def live (siteId : Nat) (s : Store) : Store :=
  s.filter (fun n => n.sites.contains siteId)

/-- `DAGCategoryManager.toplevel`: live categories with no parent. -/
def toplevel (siteId : Nat) (s : Store) : Store :=
  (live siteId s).filter (fun n => n.parent == none)

/-- `DAGCategoryManager.leaf_nodes`: live categories with no child row
(`children__isnull=True`; child liveness is not consulted). -/
def leaf_nodes (siteId : Nat) (s : Store) : Store :=
  (live siteId s).filter (fun n => !(s.any (fun c => c.parent == some n.pk)))

/-- `DAGCategoryManager.inner_nodes`: live categories having some child row. -/
def inner_nodes (siteId : Nat) (s : Store) : Store :=
  (live siteId s).filter (fun n => s.any (fun c => c.parent == some n.pk))

/-- `self.live().get(path=path)`.  The `path` column is declared
`unique=True`, so at most one row matches and `get` is a `find?`. -/
def liveGet (siteId : Nat) (s : Store) (p : String) : Option Node :=
  (live siteId s).find? (fun n => n.path == p)

/-- The `while items and limit != 0` loop of `select_from_url`: try the
join of all remaining items; on a miss pop the last item onto the front of
`extras` and decrement `limit`.  One item is dropped per iteration, so
`items.length` of fuel is always enough; the fuel is a pure termination
device and the fuel-zero row with nonempty items is unreachable from
`select_from_url`. -/
def selectLoop (siteId : Nat) (s : Store) :
    Nat → List String → List String → Int → Option Node × List String
  | _, [], extras, _ => (none, extras)
  | 0, _ :: _, extras, _ => (none, extras)
  | fuel + 1, a :: is, extras, limit =>
    if limit = 0 then (none, extras)
    else
      match liveGet siteId s (joinDelim (a :: is)) with
      | some category => (some category, extras)
      | none =>
          selectLoop siteId s fuel (a :: is).dropLast
            ((a :: is).getLast (by simp) :: extras) (limit - 1)

/-- `DAGCategoryManager.select_from_url`: split the url on `'/'`, bump a
non-`-1` limit by one, then run the matching loop. -/
def select_from_url (siteId : Nat) (s : Store) (url : String) (limit : Int) :
    Option Node × List String :=
  let items := pySplit url "/"
  let limit' := if limit ≠ -1 then limit + 1 else limit
  selectLoop siteId s items.length items [] limit'

/-- `DAGCategory.subcategories`: `self.children.live()`. -/
def subcategories (siteId : Nat) (s : Store) (n : Node) : Store :=
  live siteId (s.filter (fun c => c.parent == some n.pk))

/-- `DAGCategory.all_children`: live rows whose path starts with
`self.path + DELIMETER`. -/
def all_children (siteId : Nat) (s : Store) (n : Node) : Store :=
  (live siteId s).filter (fun m => List.isPrefixOf (n.path ++ DELIMETER).data m.path.data)

/-- `DAGCategory.subtree`: `filter(pk=self.pk) | self.all_children()`; the
two filter conditions are OR-ed over the table.  Note that the pk part is
taken from the plain manager, NOT from `live()`. -/
def subtree (siteId : Nat) (s : Store) (n : Node) : Store :=
  s.filter (fun m =>
    m.pk == n.pk ||
      (m.sites.contains siteId && List.isPrefixOf (n.path ++ DELIMETER).data m.path.data))

/-- The successive joins `DELIMETER.join(path_so_far)` accumulated by the
loop in `DAGCategory.branch`. -/
def branchPaths (sofar : List String) : List String → List String
  | [] => []
  | slug :: rest =>
      joinDelim (sofar ++ [slug]) :: branchPaths (sofar ++ [slug]) rest

/-- Prop form of `pathGe`, for the sort below. -/
def pathGeP (a b : Node) : Prop := pathGe a b = true

instance : DecidableRel pathGeP := fun a b =>
  inferInstanceAs (Decidable (pathGe a b = true))

/-- `DAGCategory.branch`: the union of plain (NOT live-filtered) exact-path
lookups for every prefix join of the split path, `order_by('-path')`
(modelled by a stable sort on descending path). -/
def branch (s : Store) (n : Node) : Store :=
  (s.filter (fun m => (branchPaths [] (pySplit n.path DELIMETER)).contains m.path)).insertionSort
    pathGeP

/-- `DAGCategory.travel_up`: `self.branch().exclude(pk=self.pk)`. -/
def travel_up (s : Store) (n : Node) : Store :=
  (branch s n).filter (fun m => !(m.pk == n.pk))

/-- `DAGCategory.parents`: `self.travel_up().reverse()`. -/
def parents (s : Store) (n : Node) : Store :=
  (travel_up s n).reverse

/-- `DAGCategory.leaf_node`: no child row exists. -/
def leaf_node (s : Store) (n : Node) : Bool :=
  !(s.any (fun c => c.parent == some n.pk))

/-- `DAGCategory.inner_node`. -/
def inner_node (s : Store) (n : Node) : Bool := !(leaf_node s n)

/-- Errors a save can raise: the circular-parenting assertion, a dangling
parent id (`DoesNotExist` on FK dereference), or exhausted modelling fuel. -/
inductive SaveError where
  | circular
  | missingParent
  | fuelOut
deriving Repr, DecidableEq

instance {e a : Type} [DecidableEq e] [DecidableEq a] : DecidableEq (Except e a) := fun x y =>
  match x, y with
  | .ok v, .ok w =>
    if h : v = w then isTrue (by rw [h]) else isFalse (by intro hc; cases hc; exact h rfl)
  | .error v, .error w =>
    if h : v = w then isTrue (by rw [h]) else isFalse (by intro hc; cases hc; exact h rfl)
  | .ok _, .error _ => isFalse (by intro hc; cases hc)
  | .error _, .ok _ => isFalse (by intro hc; cases hc)

/-- The path-building while-loop at the top of `DAGCategory.save`: walk up
the parent chain, prepending `p.slug + DELIMETER` at each step and failing
with the circular-parenting assertion when an id repeats.  The store is
finite and `visited` grows at every step, so the Python loop always stops;
`fuel` is a pure termination device and `s.length + 1` is always enough. -/
def computePath (s : Store) : Nat → List Nat → String → Option Nat → Except SaveError String
  | _, _, path, none => .ok path
  | 0, _, _, some _ => .error .fuelOut
  | fuel + 1, visited, path, some ppk =>
    match getNode s ppk with
    | none => .error .missingParent
    | some p =>
      if p.pk ∈ visited then .error .circular
      else computePath s fuel (p.pk :: visited) (p.slug ++ DELIMETER ++ path) p.parent

/-- The single row write performed by `super(DAGCategory, self).save()`:
replace the row carrying the same pk (append when the pk is new). -/
def updateNode (s : Store) (n : Node) : Store :=
  if s.any (fun m => m.pk == n.pk) then
    s.map (fun m => if m.pk == n.pk then n else m)
  else s ++ [n]

/-- Prop comparator for the default `Meta` ordering `['order']`. -/
def orderLeP (a b : Node) : Prop := a.order ≤ b.order

instance : DecidableRel orderLeP := fun a b => Nat.decLe a.order b.order

/-- `self.children.all()`: the rows whose parent FK is `pk`, in the model's
default `Meta` ordering `['order']` (stable sort). -/
def children_all (s : Store) (pk : Nat) : Store :=
  (s.filter (fun c => c.parent == some pk)).insertionSort orderLeP

/-- `DAGCategory.update_path`: overwrite the in-memory path field before
re-saving (the subsequent save recomputes it from the chain anyway). -/
def update_path (c : Node) (path_so_far : String) : Node :=
  { c with path := path_so_far ++ DELIMETER ++ c.slug }

/-- The `for c in self.children.all(): c.update_path(self.path)` loop,
parametrized by the child-save operation: propagate the first exception,
keeping the writes already performed. -/
def cascade (save1 : Store → Node → Store × Option SaveError) :
    Store → String → List Node → Store × Option SaveError
  | s, _, [] => (s, none)
  | s, parentPath, c :: cs =>
    match save1 s (update_path c parentPath) with
    | (s2, some e) => (s2, some e)
    | (s2, none) => cascade save1 s2 parentPath cs

/-- `DAGCategory.save`: compute the path — raising the circular-parenting
assertion before anything is written — persist the row, then run
`update_path` on each child.  The result is the database after the
attempted save; a `some e` second component means the save raised `e`
after performing exactly the writes recorded in the returned store.
`fuel` bounds the recursion depth only. -/
def saveNode : Nat → Store → Node → Store × Option SaveError
  | 0, s, _ => (s, some .fuelOut)
  | fuel + 1, s, n =>
    match computePath s (s.length + 1) [n.pk] n.slug n.parent with
    | .error e => (s, some e)
    | .ok path =>
      let s1 := updateNode s { n with path := path }
      cascade (fun s2 c => saveNode fuel s2 c) s1 path (children_all s1 n.pk)

/-- Decidable description of a parent-chain walk: following parent ids from
`start` resolves successively to the rows of `chain`. -/
def walkB (s : Store) : Option Nat → List Node → Bool
  | _, [] => true
  | none, _ :: _ => false
  | some ppk, c :: cs => getNode s ppk == some c && walkB s c.parent cs

theorem walkB_cons {s : Store} {ppk : Nat} {c : Node} {cs : List Node}
    (h : walkB s (some ppk) (c :: cs) = true) :
    getNode s ppk = some c ∧ walkB s c.parent cs = true := by
  simpa [walkB] using h

theorem walkB_mem {s : Store} :
    ∀ {chain : List Node} {start : Option Nat}, walkB s start chain = true →
      ∀ m ∈ chain, m ∈ s := by
  intro chain
  induction chain with
  | nil => simp
  | cons c cs ih =>
    intro start h m hm
    cases start with
    | none => simp [walkB] at h
    | some ppk =>
      obtain ⟨h1, h2⟩ := walkB_cons h
      rcases List.mem_cons.mp hm with rfl | hm
      · exact List.mem_of_find?_eq_some h1
      · exact ih h2 m hm

theorem nodup_subset_length {l l' : List Nat} (h : l.Nodup) (hs : l ⊆ l') :
    l.length ≤ l'.length := by
  have h1 : l.toFinset.card = l.length := List.toFinset_card_of_nodup h
  have h2 : l.toFinset ⊆ l'.toFinset := by
    intro x hx
    simp only [List.mem_toFinset] at hx ⊢
    exact hs hx
  calc l.length = l.toFinset.card := h1.symm
    _ ≤ l'.toFinset.card := Finset.card_le_card h2
    _ ≤ l'.length := List.toFinset_card_le l'

theorem chain_length_le {s : Store} {chain : List Node}
    (hmem : ∀ m ∈ chain, m ∈ s) (hnodup : (chain.map Node.pk).Nodup) :
    chain.length ≤ s.length := by
  have hsub : chain.map Node.pk ⊆ s.map Node.pk := by
    intro x hx
    obtain ⟨m, hm, rfl⟩ := List.mem_map.mp hx
    exact List.mem_map_of_mem _ (hmem m hm)
  simpa using nodup_subset_length hnodup hsub

/-- The circular-parenting assertion fires whenever the walk from `start`
reaches a row whose pk is already visited, before the fuel runs out. -/
theorem computePath_circular {s : Store} :
    ∀ (chain : List Node) (fuel : Nat) (visited : List Nat) (acc : String)
      (start : Option Nat) (c : Node),
      walkB s start (chain ++ [c]) = true →
      (∀ m ∈ chain, m.pk ∉ visited) →
      (chain.map Node.pk).Nodup →
      (c.pk ∈ visited ∨ c.pk ∈ chain.map Node.pk) →
      chain.length < fuel →
      computePath s fuel visited acc start = .error .circular := by
  intro chain
  induction chain with
  | nil =>
    intro fuel visited acc start c hw hfresh hnd hrev hfuel
    cases start with
    | none => simp [walkB] at hw
    | some ppk =>
      obtain ⟨h1, h2⟩ := walkB_cons (by simpa using hw)
      obtain ⟨f, rfl⟩ : ∃ f, fuel = f + 1 :=
        ⟨fuel - 1, by have h := hfuel; simp only [List.length_cons, List.length_nil] at h; omega⟩
      have hcv : c.pk ∈ visited := by
        rcases hrev with h | h
        · exact h
        · simp at h
      simp [computePath, h1, hcv]
  | cons a rest ih =>
    intro fuel visited acc start c hw hfresh hnd hrev hfuel
    cases start with
    | none => simp [walkB] at hw
    | some ppk =>
      obtain ⟨h1, h2⟩ := walkB_cons (by simpa using hw)
      obtain ⟨f, rfl⟩ : ∃ f, fuel = f + 1 :=
        ⟨fuel - 1, by have h := hfuel; simp only [List.length_cons, List.length_nil] at h; omega⟩
      have hani : a.pk ∉ visited := hfresh a (List.mem_cons_self a rest)
      have hrec := ih f (a.pk :: visited) (a.slug ++ DELIMETER ++ acc) a.parent c h2
        (by
          intro m hm
          simp only [List.mem_cons]
          push_neg
          constructor
          · intro heq
            have : a.pk ∉ (rest.map Node.pk) := by
              have := hnd
              simp only [List.map_cons, List.nodup_cons] at this
              exact this.1
            exact this (heq ▸ List.mem_map_of_mem _ hm)
          · exact hfresh m (List.mem_cons_of_mem _ hm))
        (by
          have := hnd
          simp only [List.map_cons, List.nodup_cons] at this
          exact this.2)
        (by
          rcases hrev with h | h
          · exact Or.inl (List.mem_cons_of_mem _ h)
          · simp only [List.map_cons, List.mem_cons] at h
            rcases h with h | h
            · exact Or.inl (by simp [h])
            · exact Or.inr h)
        (by simpa using Nat.lt_of_succ_lt_succ hfuel)
      simp [computePath, h1, hani, hrec]

/-- A successful walk to the root computes the left-fold of slug
prepending, i.e. the fully joined materialized path. -/
theorem computePath_ok {s : Store} :
    ∀ (chain : List Node) (fuel : Nat) (visited : List Nat) (acc : String)
      (start : Option Nat),
      walkB s start chain = true →
      (match chain.getLast? with
       | none => start = none
       | some c => c.parent = none) →
      (∀ m ∈ chain, m.pk ∉ visited) →
      (chain.map Node.pk).Nodup →
      chain.length ≤ fuel →
      computePath s fuel visited acc start =
        .ok (chain.foldl (fun a p => p.slug ++ DELIMETER ++ a) acc) := by
  intro chain
  induction chain with
  | nil =>
    intro fuel visited acc start hw hlast hfresh hnd hfuel
    simp only [List.getLast?_nil] at hlast
    subst hlast
    simp [computePath]
  | cons a rest ih =>
    intro fuel visited acc start hw hlast hfresh hnd hfuel
    cases start with
    | none => simp [walkB] at hw
    | some ppk =>
      obtain ⟨h1, h2⟩ := walkB_cons hw
      obtain ⟨f, rfl⟩ : ∃ f, fuel = f + 1 :=
        ⟨fuel - 1, by have h := hfuel; simp only [List.length_cons, List.length_nil] at h; omega⟩
      have hani : a.pk ∉ visited := hfresh a (List.mem_cons_self a rest)
      have hlast' : (match rest.getLast? with
          | none => a.parent = none
          | some c => c.parent = none) := by
        cases rest with
        | nil => simpa using hlast
        | cons b bs => simpa [List.getLast?_cons_cons] using hlast
      have hrec := ih f (a.pk :: visited) (a.slug ++ DELIMETER ++ acc) a.parent h2 hlast'
        (by
          intro m hm
          simp only [List.mem_cons]
          push_neg
          constructor
          · intro hq
            have hna : a.pk ∉ (rest.map Node.pk) := by
              have := hnd
              simp only [List.map_cons, List.nodup_cons] at this
              exact this.1
            exact hna (hq ▸ List.mem_map_of_mem _ hm)
          · exact hfresh m (List.mem_cons_of_mem _ hm))
        (by
          have := hnd
          simp only [List.map_cons, List.nodup_cons] at this
          exact this.2)
        (by simpa using Nat.le_of_succ_le_succ hfuel)
      simp [computePath, h1, hani, hrec, List.foldl_cons]

/-- C1: saving a node whose parent field points at itself or at one of its
own descendants — so that walking the parent chain from the node revisits
the node's own id — fails with the circular-parenting error, and the
database comes back completely unchanged: no write happens for that save.
`chain` lists the rows strictly between the node and the revisit, `c` the
row at which the walk reaches the node's id again. -/
theorem save_circular_no_write (fuel : Nat) (s : Store) (n : Node)
    (chain : List Node) (c : Node)
    (hwalk : walkB s n.parent (chain ++ [c]) = true)
    (hrevisit : c.pk = n.pk)
    (hfresh : ∀ m ∈ chain, m.pk ≠ n.pk)
    (hnodup : (chain.map Node.pk).Nodup)
    (hfuel : 1 ≤ fuel) :
    saveNode fuel s n = (s, some SaveError.circular) := by
  obtain ⟨f, rfl⟩ : ∃ f, fuel = f + 1 :=
        ⟨fuel - 1, by have h := hfuel; simp only [List.length_cons, List.length_nil] at h; omega⟩
  have hmem : ∀ m ∈ chain, m ∈ s := fun m hm => walkB_mem hwalk m (by simp [hm])
  have hlen : chain.length ≤ s.length := chain_length_le hmem hnodup
  have hcir : computePath s (s.length + 1) [n.pk] n.slug n.parent = .error .circular := by
    apply computePath_circular chain (s.length + 1) [n.pk] n.slug n.parent c hwalk
    · intro m hm
      simpa using hfresh m hm
    · exact hnodup
    · left
      simp [hrevisit]
    · omega
  simp [saveNode, hcir]

/-- Witness for C1: a two-row store where row 1 is moved under its own
descendant row 2; the save fails with the circular error and returns the
store untouched. -/
theorem save_circular_no_write_witness :
    saveNode 5
      [{ pk := 1, name := "A", slug := "a", sites := [1], parent := some 2,
         path := "a", order := 0 },
       { pk := 2, name := "B", slug := "b", sites := [1], parent := some 1,
         path := "a::b", order := 0 }]
      { pk := 1, name := "A", slug := "a", sites := [1], parent := some 2,
        path := "a", order := 0 } =
      ([{ pk := 1, name := "A", slug := "a", sites := [1], parent := some 2,
          path := "a", order := 0 },
        { pk := 2, name := "B", slug := "b", sites := [1], parent := some 1,
          path := "a::b", order := 0 }], some SaveError.circular) := by
  apply save_circular_no_write 5 _ _
    [{ pk := 2, name := "B", slug := "b", sites := [1], parent := some 1,
       path := "a::b", order := 0 }]
    { pk := 1, name := "A", slug := "a", sites := [1], parent := some 2,
      path := "a", order := 0 }
  · decide
  · decide
  · decide
  · decide
  · decide

theorem DELIMETER_data : DELIMETER.data = [':', ':'] := by decide

theorem joinDelim_cons (x : String) (l : List String) (h : l ≠ []) :
    joinDelim (x :: l) = x ++ DELIMETER ++ joinDelim l := by
  cases l with
  | nil => exact absurd rfl h
  | cons a rest => rfl

theorem joinDelim_append_pair (xs : List String) (a b : String) :
    joinDelim (xs ++ [a, b]) = joinDelim (xs ++ [a ++ DELIMETER ++ b]) := by
  induction xs with
  | nil => rfl
  | cons x xs ih =>
    simp only [List.cons_append]
    rw [joinDelim_cons x _ (by simp), joinDelim_cons x _ (by simp), ih]

theorem foldl_prepend_joinDelim (chain : List Node) (acc : String) :
    chain.foldl (fun a p => p.slug ++ DELIMETER ++ a) acc =
      joinDelim ((chain.map Node.slug).reverse ++ [acc]) := by
  induction chain generalizing acc with
  | nil => rfl
  | cons c cs ih =>
    show cs.foldl _ (c.slug ++ DELIMETER ++ acc) = _
    rw [ih]
    simp only [List.map_cons, List.reverse_cons, List.append_assoc, List.singleton_append]
    exact (joinDelim_append_pair (cs.map Node.slug).reverse c.slug acc).symm

theorem countOcc_none {c : Char} {cs s : List Char} (h : splitFirst c cs s = none) :
    countOcc c cs s = 0 := by
  rw [countOcc_eq, h]

theorem countOcc_some {c : Char} {cs s pre post : List Char}
    (h : splitFirst c cs s = some (pre, post)) :
    countOcc c cs s = countOcc c cs post + 1 := by
  rw [countOcc_eq, h]

/-- The delimiter `'::'` (whose characters are `[':', ':']`) occurs in `sl`. -/
def containsDelim (sl : String) : Bool := (splitFirst ':' [':'] sl.data).isSome

/-- `sl` ends with the delimiter character `':'`. -/
def endsColon (sl : String) : Bool := sl.data.getLast? == some ':'

/-- When `p` is free of the delimiter and does not end in `':'`, the first
occurrence of `'::'` in `p ++ '::' ++ q` is exactly the explicit one. -/
theorem splitFirst_boundary :
    ∀ (p q : List Char), splitFirst ':' [':'] p = none →
      p.getLast? ≠ some ':' →
      splitFirst ':' [':'] (p ++ ':' :: ':' :: q) = some (p, q) := by
  intro p
  induction p with
  | nil =>
    intro q hnone hlast
    show splitFirst ':' [':'] (':' :: ':' :: q) = some ([], q)
    rw [splitFirst]
    have hpre : (([':', ':'] : List Char).isPrefixOf (':' :: ':' :: q)) = true := by
      simp [List.isPrefixOf]
    rw [if_pos hpre]
    simp
  | cons a p ih =>
    intro q hnone hlast
    rw [List.cons_append, splitFirst]
    have hnp : ¬((([':', ':'] : List Char).isPrefixOf (a :: (p ++ ':' :: ':' :: q))) = true) := by
      intro hpre
      rw [List.isPrefixOf_iff_prefix] at hpre
      obtain ⟨t, ht⟩ := hpre
      cases p with
      | nil =>
        simp only [List.nil_append] at ht
        have ha : a = ':' := by
          have := congrArg (fun l => l.head?) ht
          simpa using this.symm
        apply hlast
        simp [ha]
      | cons b p' =>
        have ha : a = ':' ∧ b = ':' := by
          simp only [List.cons_append] at ht
          have h1 := congrArg (fun l => l.head?) ht
          have h2 := congrArg (fun l => l.tail.head?) ht
          simp at h1 h2
          exact ⟨h1.symm, h2.symm⟩
        rw [splitFirst] at hnone
        have hpre2 : (([':', ':'] : List Char).isPrefixOf (a :: b :: p')) = true := by
          simp [List.isPrefixOf, ha.1, ha.2]
        rw [if_pos hpre2] at hnone
        simp at hnone
    rw [if_neg hnp]
    have hnone' : splitFirst ':' [':'] p = none := by
      rw [splitFirst] at hnone
      by_cases hp : (([':', ':'] : List Char).isPrefixOf (a :: p)) = true
      · rw [if_pos hp] at hnone
        simp at hnone
      · rw [if_neg hp] at hnone
        cases heq : splitFirst ':' [':'] p with
        | none => rfl
        | some pq =>
          obtain ⟨x, y⟩ := pq
          rw [heq] at hnone
          simp at hnone
    have hlast' : p.getLast? ≠ some ':' := by
      cases p with
      | nil => simp
      | cons b p' =>
        intro hc
        apply hlast
        rw [List.getLast?_cons_cons]
        exact hc
    rw [ih q hnone' hlast']

theorem splitOnChars_boundary (p q : List Char)
    (hnone : splitFirst ':' [':'] p = none) (hlast : p.getLast? ≠ some ':') :
    splitOnChars ':' [':'] (p ++ ':' :: ':' :: q) = p :: splitOnChars ':' [':'] q := by
  rw [splitOnChars_eq, splitFirst_boundary p q hnone hlast]

theorem countOcc_boundary (p q : List Char)
    (hnone : splitFirst ':' [':'] p = none) (hlast : p.getLast? ≠ some ':') :
    countOcc ':' [':'] (p ++ ':' :: ':' :: q) = countOcc ':' [':'] q + 1 := by
  rw [countOcc_eq, splitFirst_boundary p q hnone hlast]

theorem pySplit_delim (s : String) :
    pySplit s DELIMETER = (splitOnChars ':' [':'] s.data).map (fun l => String.mk l) := by
  unfold pySplit
  rw [DELIMETER_data]

theorem pyCount_delim (s : String) :
    pyCount s DELIMETER = countOcc ':' [':'] s.data := by
  unfold pyCount
  rw [DELIMETER_data]

theorem data_joinDelim_cons (a : String) (rest : List String) (h : rest ≠ []) :
    (joinDelim (a :: rest)).data = a.data ++ ':' :: ':' :: (joinDelim rest).data := by
  rw [joinDelim_cons a rest h]
  simp [String.data_append, DELIMETER_data]

theorem not_endsColon_getLast {a : String} (h : endsColon a = false) :
    a.data.getLast? ≠ some ':' := by
  simpa [endsColon] using h

theorem not_containsDelim_splitFirst {a : String} (h : containsDelim a = false) :
    splitFirst ':' [':'] a.data = none := by
  simpa [containsDelim, Option.isSome_iff_exists] using h

/-- Splitting the delimiter-join of parts recovers the parts, provided no
part contains the delimiter and no part except the last ends in `':'`. -/
theorem pySplit_joinDelim :
    ∀ (parts : List String), parts ≠ [] →
      (∀ sl ∈ parts, containsDelim sl = false) →
      (∀ sl ∈ parts.dropLast, endsColon sl = false) →
      pySplit (joinDelim parts) DELIMETER = parts := by
  intro parts
  induction parts with
  | nil => intro h; exact absurd rfl h
  | cons a rest ih =>
    intro _ hfree hend
    cases rest with
    | nil =>
      rw [pySplit_delim]
      have hja : joinDelim [a] = a := rfl
      rw [hja]
      have hf : splitFirst ':' [':'] a.data = none :=
        not_containsDelim_splitFirst (hfree a (by simp))
      rw [splitOnChars_eq, hf]
      simp
    | cons b rest' =>
      rw [pySplit_delim, data_joinDelim_cons a (b :: rest') (by simp)]
      have hf : splitFirst ':' [':'] a.data = none :=
        not_containsDelim_splitFirst (hfree a (by simp))
      have hl : a.data.getLast? ≠ some ':' :=
        not_endsColon_getLast (hend a (by simp [List.dropLast_cons₂]))
      rw [splitOnChars_boundary _ _ hf hl]
      simp only [List.map_cons]
      have hih := ih (by simp)
        (fun sl h => hfree sl (List.mem_cons_of_mem _ h))
        (fun sl h => hend sl (by
          rw [List.dropLast_cons₂]
          exact List.mem_cons_of_mem _ h))
      rw [pySplit_delim] at hih
      rw [hih]

/-- Counting delimiter occurrences in the join: one per internal boundary,
under the same cleanliness conditions. -/
theorem pyCount_joinDelim :
    ∀ (parts : List String), parts ≠ [] →
      (∀ sl ∈ parts, containsDelim sl = false) →
      (∀ sl ∈ parts.dropLast, endsColon sl = false) →
      pyCount (joinDelim parts) DELIMETER + 1 = parts.length := by
  intro parts
  induction parts with
  | nil => intro h; exact absurd rfl h
  | cons a rest ih =>
    intro _ hfree hend
    cases rest with
    | nil =>
      rw [pyCount_delim]
      have hja : joinDelim [a] = a := rfl
      rw [hja]
      have hf : splitFirst ':' [':'] a.data = none :=
        not_containsDelim_splitFirst (hfree a (by simp))
      rw [countOcc_eq, hf]
      simp
    | cons b rest' =>
      rw [pyCount_delim, data_joinDelim_cons a (b :: rest') (by simp)]
      have hf : splitFirst ':' [':'] a.data = none :=
        not_containsDelim_splitFirst (hfree a (by simp))
      have hl : a.data.getLast? ≠ some ':' :=
        not_endsColon_getLast (hend a (by simp [List.dropLast_cons₂]))
      rw [countOcc_boundary _ _ hf hl]
      have hih := ih (by simp)
        (fun sl h => hfree sl (List.mem_cons_of_mem _ h))
        (fun sl h => hend sl (by
          rw [List.dropLast_cons₂]
          exact List.mem_cons_of_mem _ h))
      rw [pyCount_delim] at hih
      simp only [List.length_cons] at hih ⊢
      omega

/-- Concrete rows shared by witnesses below: a root `a` with children `b`,
`c` and grandchild `d` (paths as maintained by save). -/
def cA : Node :=
  { pk := 1, name := "A", slug := "a", sites := [1], parent := none, path := "a", order := 0 }

def cB : Node :=
  { pk := 2, name := "B", slug := "b", sites := [1], parent := some 1, path := "a::b", order := 0 }

def cC : Node :=
  { pk := 3, name := "C", slug := "c", sites := [1], parent := some 1, path := "a::c", order := 1 }

def cD : Node :=
  { pk := 4, name := "D", slug := "d", sites := [1], parent := some 2, path := "a::b::d", order := 0 }

def cStore : Store := [cA, cB, cC, cD]

/-- C2 (amended): for a node whose parent chain is acyclic — witnessed by the
resolved chain `chain`, youngest ancestor first, ending at a root — the path
computed on save is the slugs of every ancestor and of the node itself,
joined by the delimiter in root-to-self order; in particular a parentless
node gets its own slug.  Decomposing the computed path on the delimiter
recovers exactly that root-to-self slug sequence, given slugs that do not
contain the delimiter and of which none before the node's own ends in the
delimiter character `':'` (the extra condition forced by the
counterexample). -/
theorem save_path_joins_ancestor_slugs (s : Store) (n : Node) (chain : List Node)
    (hwalk : walkB s n.parent chain = true)
    (hroot : (match chain.getLast? with
              | none => n.parent = none
              | some c => c.parent = none))
    (hfresh : ∀ m ∈ chain, m.pk ≠ n.pk)
    (hnodup : (chain.map Node.pk).Nodup) :
    computePath s (s.length + 1) [n.pk] n.slug n.parent =
        .ok (joinDelim ((chain.map Node.slug).reverse ++ [n.slug])) ∧
      (n.parent = none →
        computePath s (s.length + 1) [n.pk] n.slug n.parent = .ok n.slug) ∧
      ((∀ sl ∈ (chain.map Node.slug).reverse ++ [n.slug], containsDelim sl = false) →
        (∀ sl ∈ (chain.map Node.slug).reverse, endsColon sl = false) →
        pySplit (joinDelim ((chain.map Node.slug).reverse ++ [n.slug])) DELIMETER =
          (chain.map Node.slug).reverse ++ [n.slug]) := by
  have hmem : ∀ m ∈ chain, m ∈ s := walkB_mem hwalk
  have hlen : chain.length ≤ s.length := chain_length_le hmem hnodup
  have hok := computePath_ok chain (s.length + 1) [n.pk] n.slug n.parent hwalk hroot
    (fun m hm => by simpa using hfresh m hm) hnodup (by omega)
  rw [foldl_prepend_joinDelim] at hok
  refine ⟨hok, ?_, ?_⟩
  · intro hp
    rw [hp]
    simp [computePath]
  · intro hfree hend
    apply pySplit_joinDelim _ (by simp) hfree
    intro sl hsl
    rw [List.dropLast_concat] at hsl
    exact hend sl hsl

/-- Witness for C2: the computed path of grandchild `d` under chain
`b, a` is `a::b::d`, and splitting recovers `a, b, d`. -/
theorem save_path_joins_ancestor_slugs_witness :
    computePath cStore (cStore.length + 1) [4] "d" (some 2) = .ok "a::b::d" ∧
      pySplit "a::b::d" DELIMETER = ["a", "b", "d"] := by
  have h := save_path_joins_ancestor_slugs cStore cD [cB, cA]
    (by decide) (by exact rfl) (by decide) (by decide)
  refine ⟨?_, ?_⟩
  · have h1 := h.1
    simpa [cStore, cD, cB, cA] using h1
  · have h3 := h.2.2 (by decide) (by decide)
    simpa [cB, cA, cD] using h3

/-- Rows whose slugs contain no `'::'` but where one non-final slug ends in
`':'`: the parent `a:` with child `b`. -/
def cPcolon : Node :=
  { pk := 1, name := "P", slug := "a:", sites := [1], parent := none, path := "a:", order := 0 }

def cNcolon : Node :=
  { pk := 2, name := "N", slug := "b", sites := [1], parent := some 1, path := "a:::b",
    order := 0 }

def cStoreColon : Store := [cPcolon, cNcolon]

/-- Counterexample to C2 as stated: the slugs `"a:"` and `"b"` do not
contain the delimiter `'::'`, the chain is acyclic (one ancestor, a root),
the computed path is `"a:::b"` — but decomposing that path on the delimiter
yields `["a", ":b"]`, not the ancestor slug sequence `["a:", "b"]`. -/
theorem save_path_decompose_cex :
    walkB cStoreColon (some 1) [cPcolon] = true ∧
      cPcolon.parent = none ∧
      containsDelim "a:" = false ∧ containsDelim "b" = false ∧
      computePath cStoreColon (cStoreColon.length + 1) [2] "b" (some 1) = .ok "a:::b" ∧
      pySplit "a:::b" DELIMETER = ["a", ":b"] ∧
      pySplit "a:::b" DELIMETER ≠ ["a:", "b"] := by decide

theorem selectLoop_nonempty (siteId : Nat) (s : Store) (items extras : List String)
    (limit : Int) (h : items ≠ []) :
    selectLoop siteId s items.length items extras limit =
      if limit = 0 then (none, extras)
      else
        match liveGet siteId s (joinDelim items) with
        | some category => (some category, extras)
        | none =>
            selectLoop siteId s items.dropLast.length items.dropLast
              (items.getLast h :: extras) (limit - 1) := by
  cases items with
  | nil => exact absurd rfl h
  | cons a is =>
    show selectLoop siteId s (is.length + 1) (a :: is) extras limit = _
    rw [selectLoop]
    simp [List.length_dropLast]

/-- The body of the longest-prefix argument: with a negative (hence
never-exhausting) limit, the loop returns the hit at the longest matching
prefix length `k`, with the dropped tail prepended to `extras`. -/
theorem selectLoop_longest (siteId : Nat) (s : Store) :
    ∀ (items extras : List String) (limit : Int) (k : Nat) (node : Node),
      limit < 0 → 1 ≤ k → k ≤ items.length →
      liveGet siteId s (joinDelim (items.take k)) = some node →
      (∀ j, k < j → j ≤ items.length →
        liveGet siteId s (joinDelim (items.take j)) = none) →
      selectLoop siteId s items.length items extras limit =
        (some node, items.drop k ++ extras) := by
  intro items
  induction items using List.reverseRecOn with
  | nil =>
    intro extras limit k node hneg hk1 hk2 hhit hmiss
    simp at hk2
    omega
  | append_singleton xs x ih =>
    intro extras limit k node hneg hk1 hk2 hhit hmiss
    rw [selectLoop_nonempty siteId s (xs ++ [x]) extras limit (by simp)]
    rw [if_neg (by omega)]
    by_cases hk : k = (xs ++ [x]).length
    · rw [hk, List.take_length] at hhit
      rw [hhit, hk, List.drop_length]
      simp
    · have hklt : k < (xs ++ [x]).length := lt_of_le_of_ne hk2 hk
      have hmiss_full := hmiss (xs ++ [x]).length hklt le_rfl
      rw [List.take_length] at hmiss_full
      rw [hmiss_full]
      have hxslen : k ≤ xs.length := by
        simp only [List.length_append, List.length_cons, List.length_nil] at hklt
        omega
      have htake : ∀ j, j ≤ xs.length → (xs ++ [x]).take j = xs.take j := by
        intro j hj
        exact List.take_append_of_le_length hj
      have hrec := ih (x :: extras) (limit - 1) k node (by omega) hk1 hxslen
        (by rw [← htake k hxslen]; exact hhit)
        (by
          intro j hj1 hj2
          rw [← htake j hj2]
          exact hmiss j hj1 (by simp; omega))
      rw [List.dropLast_concat, List.getLast_concat, hrec]
      rw [List.drop_append_of_le_length hxslen]
      simp

/-- C5: with `min_match_count = -1` the resolver performs longest-prefix
matching: when the `k`-segment prefix of the locator (`1 ≤ k`) is the
longest one whose delimiter-join is a stored (live) path, the node stored
at that path is returned together with exactly the remaining trailing
segments in their original relative order — a shorter match is never
returned when a longer prefix also matches. -/
theorem select_from_url_longest_prefix (siteId : Nat) (s : Store) (url : String)
    (items : List String) (k : Nat) (node : Node)
    (hsplit : pySplit url "/" = items)
    (hk1 : 1 ≤ k) (hk2 : k ≤ items.length)
    (hhit : liveGet siteId s (joinDelim (items.take k)) = some node)
    (hmiss : ∀ j, k < j → j ≤ items.length →
      liveGet siteId s (joinDelim (items.take j)) = none) :
    select_from_url siteId s url (-1) = (some node, items.drop k) := by
  have hlim : (if (-1 : Int) ≠ -1 then (-1 : Int) + 1 else -1) = -1 := by norm_num
  show selectLoop siteId s (pySplit url "/").length (pySplit url "/") []
      (if (-1 : Int) ≠ -1 then (-1 : Int) + 1 else -1) = _
  rw [hlim, hsplit]
  have := selectLoop_longest siteId s items [] (-1) k node (by norm_num) hk1 hk2 hhit hmiss
  simpa using this

/-- A store holding exactly the live path `shoes::red`. -/
def cShoes : Node :=
  { pk := 1, name := "Red shoes", slug := "red", sites := [1], parent := some 7,
    path := "shoes::red", order := 0 }

def cShoesStore : Store := [cShoes]

/-- Witness for C5: resolving `shoes/red/size-10` against a store holding
only `shoes::red` returns that node with leftover `size-10`. -/
theorem select_from_url_longest_prefix_witness :
    select_from_url 1 cShoesStore "shoes/red/size-10" (-1) =
      (some cShoes, ["size-10"]) := by
  have h := select_from_url_longest_prefix 1 cShoesStore "shoes/red/size-10"
    ["shoes", "red", "size-10"] 2 cShoes
    (by decide) (by decide) (by decide) (by decide)
    (by
      intro j h1 h2
      simp only [List.length_cons, List.length_nil] at h2
      interval_cases j
      · decide)
  simpa using h

/-- Counterexample to C6 as stated: with `min_match_count = 0` and no
full-length match, the code returns ONLY the popped last segment
`["size-10"]` as leftovers — not all three segments as the claim says. -/
theorem select_limit_zero_cex :
    select_from_url 1 cShoesStore "shoes/red/size-10" 0 = (none, ["size-10"]) ∧
      select_from_url 1 cShoesStore "shoes/red/size-10" 0 ≠
        (none, ["shoes", "red", "size-10"]) := by decide

/-- C6 (amended): resolving with `min_match_count = 0` against a store with
no match at full length performs exactly one lookup attempt — at full
length — and returns no match with only the single popped last segment as
the leftovers; the segments still under consideration when the budget runs
out are not reported. -/
theorem select_limit_zero (siteId : Nat) (s : Store) (url : String)
    (a : String) (is : List String)
    (hsplit : pySplit url "/" = a :: is)
    (hmiss : liveGet siteId s (joinDelim (a :: is)) = none) :
    select_from_url siteId s url 0 = (none, [(a :: is).getLast (by simp)]) := by
  have hlim : (if (0 : Int) ≠ -1 then (0 : Int) + 1 else 0) = 1 := by norm_num
  show selectLoop siteId s (pySplit url "/").length (pySplit url "/") []
      (if (0 : Int) ≠ -1 then (0 : Int) + 1 else 0) = _
  rw [hlim, hsplit]
  rw [selectLoop_nonempty siteId s (a :: is) [] 1 (by simp)]
  rw [if_neg (by norm_num), hmiss]
  cases hdl : (a :: is).dropLast with
  | nil => rfl
  | cons b bs =>
    have h0 : (1 : Int) - 1 = 0 := by norm_num
    show selectLoop siteId s (b :: bs).length (b :: bs) [(a :: is).getLast (by simp)] (1 - 1) =
      (none, [(a :: is).getLast (by simp)])
    rw [h0, selectLoop_nonempty siteId s (b :: bs) _ 0 (by simp)]
    rw [if_pos rfl]

/-- Witness for C6 (amended): a miss at full length with budget 0 returns
only the popped segment. -/
theorem select_limit_zero_witness :
    select_from_url 1 cShoesStore "shoes/blue" 0 = (none, ["blue"]) := by
  have h := select_limit_zero 1 cShoesStore "shoes/blue" "shoes" ["blue"]
    (by decide) (by decide)
  simpa using h

theorem liveGet_live {siteId : Nat} {s : Store} {p : String} {node : Node}
    (h : liveGet siteId s p = some node) : node.sites.contains siteId = true := by
  have hmem := List.mem_of_find?_eq_some h
  rw [live, List.mem_filter] at hmem
  exact hmem.2

theorem selectLoop_live {siteId : Nat} {s : Store} :
    ∀ (fuel : Nat) (items extras : List String) (limit : Int) (node : Node)
      (ex : List String),
      selectLoop siteId s fuel items extras limit = (some node, ex) →
      node.sites.contains siteId = true := by
  intro fuel
  induction fuel with
  | zero =>
    intro items extras limit node ex h
    cases items with
    | nil => simp [selectLoop] at h
    | cons a is => simp [selectLoop] at h
  | succ fuel ih =>
    intro items extras limit node ex h
    cases items with
    | nil => simp [selectLoop] at h
    | cons a is =>
      rw [selectLoop] at h
      by_cases hl : limit = 0
      · rw [if_pos hl] at h
        simp at h
      · rw [if_neg hl] at h
        cases hg : liveGet siteId s (joinDelim (a :: is)) with
        | some cat =>
          rw [hg] at h
          have hc : cat = node := by
            have := congrArg Prod.fst h
            simpa using this
          subst hc
          exact liveGet_live hg
        | none =>
          rw [hg] at h
          exact ih _ _ _ _ _ h

/-- A row attached to no site: it fails the visibility filter everywhere. -/
def cGhost : Node :=
  { pk := 5, name := "Ghost", slug := "g", sites := [], parent := none, path := "g",
    order := 0 }

/-- Counterexample to C7 as stated: a node that does not pass the
visibility filter is nevertheless returned by both `subtree` (which takes
its pk part from the plain manager) and `branch` (which never filters). -/
theorem query_live_filtering_cex :
    cGhost.sites.contains 1 = false ∧
      cGhost ∈ subtree 1 [cGhost] cGhost ∧
      cGhost ∈ branch [cGhost] cGhost := by decide

/-- C7 (amended): the live()-based entry points — toplevel, leaf_nodes,
inner_nodes, select_from_url, all_children, subcategories — return only
rows accepted by the visibility filter.  But subtree and the branch-based
queries bypass it: subtree(n) contains the stored row with n's pk whatever
its sites, and branch (hence travel_up and parents) returns every stored
row whose path is one of the prefix joins, irrespective of the filter. -/
theorem query_live_filtering (siteId : Nat) (s : Store) (n : Node) :
    (∀ m ∈ toplevel siteId s, m.sites.contains siteId = true) ∧
      (∀ m ∈ leaf_nodes siteId s, m.sites.contains siteId = true) ∧
      (∀ m ∈ inner_nodes siteId s, m.sites.contains siteId = true) ∧
      (∀ (url : String) (limit : Int) (node : Node) (ex : List String),
        select_from_url siteId s url limit = (some node, ex) →
        node.sites.contains siteId = true) ∧
      (∀ m ∈ all_children siteId s n, m.sites.contains siteId = true) ∧
      (∀ m ∈ subcategories siteId s n, m.sites.contains siteId = true) ∧
      (n ∈ s → n ∈ subtree siteId s n) ∧
      (∀ m ∈ s, m.path ∈ branchPaths [] (pySplit n.path DELIMETER) → m ∈ branch s n) := by
  refine ⟨?_, ?_, ?_, ?_, ?_, ?_, ?_, ?_⟩
  · intro m hm
    rw [toplevel, List.mem_filter] at hm
    have := hm.1
    rw [live, List.mem_filter] at this
    exact this.2
  · intro m hm
    rw [leaf_nodes, List.mem_filter] at hm
    have := hm.1
    rw [live, List.mem_filter] at this
    exact this.2
  · intro m hm
    rw [inner_nodes, List.mem_filter] at hm
    have := hm.1
    rw [live, List.mem_filter] at this
    exact this.2
  · intro url limit node ex h
    exact selectLoop_live _ _ _ _ _ _ h
  · intro m hm
    rw [all_children, List.mem_filter] at hm
    have := hm.1
    rw [live, List.mem_filter] at this
    exact this.2
  · intro m hm
    rw [subcategories, live, List.mem_filter] at hm
    exact hm.2
  · intro hn
    rw [subtree, List.mem_filter]
    exact ⟨hn, by simp⟩
  · intro m hm hp
    rw [branch]
    have hmem : m ∈ s.filter
        (fun m => (branchPaths [] (pySplit n.path DELIMETER)).contains m.path) := by
      rw [List.mem_filter]
      exact ⟨hm, by simpa using hp⟩
    exact ((List.perm_insertionSort pathGeP _).mem_iff).mpr hmem

/-- Witness for C7 (amended): on the concrete store, toplevel members pass
the filter and the unfiltered subtree self-inclusion holds. -/
theorem query_live_filtering_witness :
    cA.sites.contains 1 = true ∧ cA ∈ subtree 1 cStore cA := by
  have h := query_live_filtering 1 cStore cA
  exact ⟨h.1 cA (by decide), h.2.2.2.2.2.2.1 (by decide)⟩

theorem string_ext {a b : String} (h : a.data = b.data) : a = b := by
  cases a
  cases b
  exact congrArg String.mk h

theorem string_append_assoc (a b c : String) : a ++ b ++ c = a ++ (b ++ c) := by
  apply string_ext
  simp [String.data_append]

theorem lexLt_irrefl : ∀ (a : List Char), lexLt a a = false := by
  intro a
  induction a with
  | nil => rfl
  | cons x xs ih => simp [lexLt, ih]

theorem lexLt_trans : ∀ (a b c : List Char),
    lexLt a b = true → lexLt b c = true → lexLt a c = true := by
  intro a
  induction a with
  | nil =>
    intro b c hab hbc
    cases b with
    | nil => simp [lexLt] at hab
    | cons y ys =>
      cases c with
      | nil => simp [lexLt] at hbc
      | cons z zs => simp [lexLt]
  | cons x xs ih =>
    intro b c hab hbc
    cases b with
    | nil => simp [lexLt] at hab
    | cons y ys =>
      cases c with
      | nil => simp [lexLt] at hbc
      | cons z zs =>
        rw [lexLt] at hab hbc ⊢
        by_cases hxy : x < y
        · by_cases hyz : y < z
          · rw [if_pos (lt_trans hxy hyz)]
          · rw [if_neg hyz] at hbc
            by_cases hzy : z < y
            · rw [if_pos hzy] at hbc
              simp at hbc
            · have heq : y = z := le_antisymm (not_lt.mp hzy) (not_lt.mp hyz)
              rw [if_pos (heq ▸ hxy)]
        · rw [if_neg hxy] at hab
          by_cases hyx : y < x
          · rw [if_pos hyx] at hab
            simp at hab
          · rw [if_neg hyx] at hab
            have heq : x = y := le_antisymm (not_lt.mp hyx) (not_lt.mp hxy)
            subst heq
            by_cases hxz : x < z
            · rw [if_pos hxz]
            · rw [if_neg hxz] at hbc ⊢
              by_cases hzx : z < x
              · rw [if_pos hzx] at hbc
                simp at hbc
              · rw [if_neg hzx] at hbc ⊢
                exact ih ys zs hab hbc

theorem lexLt_total : ∀ (a b : List Char),
    lexLt a b = true ∨ lexLt b a = true ∨ a = b := by
  intro a
  induction a with
  | nil =>
    intro b
    cases b with
    | nil => exact Or.inr (Or.inr rfl)
    | cons y ys => exact Or.inl (by simp [lexLt])
  | cons x xs ih =>
    intro b
    cases b with
    | nil => exact Or.inr (Or.inl (by simp [lexLt]))
    | cons y ys =>
      by_cases hxy : x < y
      · exact Or.inl (by simp [lexLt, hxy])
      · by_cases hyx : y < x
        · exact Or.inr (Or.inl (by simp [lexLt, hyx]))
        · have heq : x = y := le_antisymm (not_lt.mp hyx) (not_lt.mp hxy)
          subst heq
          rcases ih ys with h | h | h
          · exact Or.inl (by simp [lexLt, lt_irrefl, h])
          · exact Or.inr (Or.inl (by simp [lexLt, lt_irrefl, h]))
          · exact Or.inr (Or.inr (by rw [h]))

theorem lexLt_append : ∀ (p q : List Char), q ≠ [] → lexLt p (p ++ q) = true := by
  intro p
  induction p with
  | nil =>
    intro q hq
    cases q with
    | nil => exact absurd rfl hq
    | cons c cs => simp [lexLt]
  | cons a p ih =>
    intro q hq
    simp only [List.cons_append, lexLt, lt_self_iff_false, if_false]
    exact ih q hq

theorem pathLe_trans {a b c : Node} (h1 : pathLe a b = true) (h2 : pathLe b c = true) :
    pathLe a c = true := by
  rw [pathLe, Bool.or_eq_true, beq_iff_eq] at h1 h2 ⊢
  rcases h1 with h1 | h1
  · rcases h2 with h2 | h2
    · exact Or.inl (lexLt_trans _ _ _ h1 h2)
    · exact Or.inl (h2 ▸ h1)
  · rw [h1]
    exact h2

theorem pathLe_total (a b : Node) : pathLe a b = true ∨ pathLe b a = true := by
  rw [pathLe, pathLe, Bool.or_eq_true, Bool.or_eq_true, beq_iff_eq, beq_iff_eq]
  rcases lexLt_total a.path.data b.path.data with h | h | h
  · exact Or.inl (Or.inl h)
  · exact Or.inr (Or.inl h)
  · exact Or.inl (Or.inr (string_ext h))

theorem pathLe_antisymm_path {a b : Node} (h1 : pathLe a b = true) (h2 : pathLe b a = true) :
    a.path = b.path := by
  rw [pathLe, Bool.or_eq_true, beq_iff_eq] at h1 h2
  rcases h1 with h1 | h1
  · rcases h2 with h2 | h2
    · have := lexLt_trans _ _ _ h1 h2
      rw [lexLt_irrefl] at this
      exact absurd this (by simp)
    · exact h2.symm
  · exact h1

instance : IsTrans Node pathGeP :=
  ⟨fun a b c h1 h2 => pathLe_trans h2 h1⟩

instance : IsTotal Node pathGeP :=
  ⟨fun a b => by
    rcases pathLe_total b a with h | h
    · exact Or.inl h
    · exact Or.inr h⟩

/-- Two permuted lists, both sorted by `r`, with `r` antisymmetric on their
elements, are equal. -/
theorem eq_of_perm_of_pairwise {α : Type} {r : α → α → Prop} :
    ∀ {l₁ l₂ : List α}, l₁.Perm l₂ → l₁.Pairwise r → l₂.Pairwise r →
      (∀ a ∈ l₁, ∀ b ∈ l₁, r a b → r b a → a = b) → l₁ = l₂ := by
  intro l₁
  induction l₁ with
  | nil =>
    intro l₂ hp _ _ _
    exact List.Perm.nil_eq hp
  | cons a t ih =>
    intro l₂ hp h1 h2 hanti
    cases l₂ with
    | nil => exact absurd (List.Perm.eq_nil hp) (by simp)
    | cons b t₂ =>
      have hab : a = b := by
        by_cases hne : a = b
        · exact hne
        · have hbmem : b ∈ a :: t := hp.symm.subset (List.mem_cons_self b t₂)
          have hamem : a ∈ b :: t₂ := hp.subset (List.mem_cons_self a t)
          have hb_t : b ∈ t := by
            rcases List.mem_cons.mp hbmem with h | h
            · exact absurd h.symm hne
            · exact h
          have ha_t2 : a ∈ t₂ := by
            rcases List.mem_cons.mp hamem with h | h
            · exact absurd h hne
            · exact h
          have hrab : r a b := (List.pairwise_cons.mp h1).1 b hb_t
          have hrba : r b a := (List.pairwise_cons.mp h2).1 a ha_t2
          exact hanti a (List.mem_cons_self a t) b (List.mem_cons_of_mem a hb_t) hrab hrba
      subst hab
      have hpt : t.Perm t₂ := hp.cons_inv
      rw [ih hpt (List.pairwise_cons.mp h1).2 (List.pairwise_cons.mp h2).2
        (fun x hx y hy => hanti x (List.mem_cons_of_mem a hx) y (List.mem_cons_of_mem a hy))]

theorem splitFirst_decomp {c : Char} {cs : List Char} :
    ∀ {s pre post : List Char}, splitFirst c cs s = some (pre, post) →
      s = pre ++ (c :: cs) ++ post := by
  intro s
  induction s with
  | nil =>
    intro pre post h
    simp [splitFirst] at h
  | cons a s ih =>
    intro pre post h
    rw [splitFirst] at h
    by_cases hp : (((c :: cs).isPrefixOf (a :: s)) = true)
    · rw [if_pos hp] at h
      obtain ⟨h1, h2⟩ := Prod.mk.injEq .. ▸ Option.some.injEq .. ▸ h
      subst h1
      subst h2
      rw [List.isPrefixOf_iff_prefix] at hp
      obtain ⟨t, ht⟩ := hp
      have hdrop : t = s.drop cs.length := by
        have hd := congrArg (List.drop (cs.length + 1)) ht
        rw [show cs.length + 1 = (c :: cs).length from rfl, List.drop_left] at hd
        simpa using hd
      rw [List.nil_append]
      rw [← hdrop]
      exact ht.symm
    · rw [if_neg hp] at h
      cases heq : splitFirst c cs s with
      | none =>
        rw [heq] at h
        exact absurd h (by simp)
      | some pq =>
        obtain ⟨p', q'⟩ := pq
        rw [heq] at h
        obtain ⟨h1, h2⟩ := Prod.mk.injEq .. ▸ Option.some.injEq .. ▸ h
        subst h1
        subst h2
        rw [ih heq]
        simp

theorem splitOnChars_ne_nil (c : Char) (cs : List Char) (s : List Char) :
    splitOnChars c cs s ≠ [] := by
  rw [splitOnChars_eq]
  cases h : splitFirst c cs s with
  | none => simp
  | some pq =>
    obtain ⟨pre, post⟩ := pq
    simp

/-- Joining the split back always recovers the original string (the
unconditional direction of the split/join correspondence). -/
theorem joinDelim_pySplit (p : String) : joinDelim (pySplit p DELIMETER) = p := by
  have H : ∀ (m : Nat) (p : String), p.data.length ≤ m →
      joinDelim (pySplit p DELIMETER) = p := by
    intro m
    induction m with
    | zero =>
      intro p hp
      have hnil : p.data = [] := List.eq_nil_of_length_eq_zero (Nat.le_zero.mp hp)
      have h0 : splitFirst ':' [':'] p.data = none := by
        rw [hnil]
        rfl
      rw [pySplit_delim, splitOnChars_eq, h0]
      rfl
    | succ m ih =>
      intro p hp
      rw [pySplit_delim, splitOnChars_eq]
      cases hsp : splitFirst ':' [':'] p.data with
      | none => rfl
      | some pq =>
        obtain ⟨pre, post⟩ := pq
        have hdec := splitFirst_decomp hsp
        have hlt := splitFirst_post_lt hsp
        rw [List.map_cons]
        have hne : (splitOnChars ':' [':'] post).map (fun l => String.mk l) ≠ [] := by
          simp [splitOnChars_ne_nil]
        rw [joinDelim_cons _ _ hne]
        have hih : joinDelim ((splitOnChars ':' [':'] post).map (fun l => String.mk l)) =
            String.mk post := by
          have h := ih (String.mk post) (by
            show post.length ≤ m
            omega)
          rw [pySplit_delim] at h
          exact h
        rw [hih]
        apply string_ext
        simp only [String.data_append, DELIMETER_data]
        rw [hdec]
  exact H p.data.length p le_rfl

theorem joinDelim_append (l l' : List String) (h : l ≠ []) (h' : l' ≠ []) :
    joinDelim (l ++ l') = joinDelim l ++ DELIMETER ++ joinDelim l' := by
  induction l with
  | nil => exact absurd rfl h
  | cons a t ih =>
    cases t with
    | nil =>
      show joinDelim (a :: l') = _
      rw [joinDelim_cons a l' h']
      rfl
    | cons b t' =>
      rw [List.cons_append, joinDelim_cons a _ (by simp), ih (by simp),
        joinDelim_cons a _ (by simp)]
      apply string_ext
      simp [String.data_append]

theorem branchPaths_mem :
    ∀ (parts sofar : List String) (x : String),
      x ∈ branchPaths sofar parts ↔
        ∃ i, i < parts.length ∧ x = joinDelim (sofar ++ parts.take (i + 1)) := by
  intro parts
  induction parts with
  | nil =>
    intro sofar x
    simp [branchPaths]
  | cons slug rest ih =>
    intro sofar x
    rw [branchPaths]
    simp only [List.mem_cons]
    constructor
    · intro h
      rcases h with h | h
      · exact ⟨0, by simp, by simpa using h⟩
      · obtain ⟨i, hi, hx⟩ := (ih (sofar ++ [slug]) x).mp h
        refine ⟨i + 1, by simpa using Nat.succ_lt_succ hi, ?_⟩
        rw [hx]
        congr 1
        simp [List.take_cons]
    · intro h
      obtain ⟨i, hi, hx⟩ := h
      cases i with
      | zero =>
        left
        simpa using hx
      | succ j =>
        right
        apply (ih (sofar ++ [slug]) x).mpr
        refine ⟨j, by simpa using Nat.lt_of_succ_lt_succ hi, ?_⟩
        rw [hx]
        congr 1
        simp [List.take_cons]

theorem eq_of_path_eq {s : Store} (hnd : (s.map Node.path).Nodup) {x y : Node}
    (hx : x ∈ s) (hy : y ∈ s) (hpq : x.path = y.path) : x = y :=
  List.inj_on_of_nodup_map hnd hx hy hpq

/-- Among the prefix joins of a fixed part list, a longer prefix is
lexicographically strictly above a shorter (nonempty) one. -/
theorem joinDelim_take_lt (parts : List String) (i j : Nat)
    (h1 : 1 ≤ i) (hij : i < j) (hj : j ≤ parts.length) :
    lexLt (joinDelim (parts.take i)).data (joinDelim (parts.take j)).data = true := by
  have hdecomp : parts.take j = parts.take i ++ (parts.drop i).take (j - i) := by
    conv_lhs => rw [show j = i + (j - i) from by omega]
    rw [List.take_add]
  have hne1 : parts.take i ≠ [] := by
    intro hc
    have := congrArg List.length hc
    simp only [List.length_take, List.length_nil] at this
    omega
  have hne2 : (parts.drop i).take (j - i) ≠ [] := by
    intro hc
    have := congrArg List.length hc
    simp only [List.length_take, List.length_drop, List.length_nil] at this
    omega
  rw [hdecomp, joinDelim_append _ _ hne1 hne2]
  have hdata : (joinDelim (parts.take i) ++ DELIMETER ++
      joinDelim ((parts.drop i).take (j - i))).data =
      (joinDelim (parts.take i)).data ++
        (':' :: ':' :: (joinDelim ((parts.drop i).take (j - i))).data) := by
    simp [String.data_append, DELIMETER_data]
  rw [hdata]
  exact lexLt_append _ _ (by simp)

/-- C8: for a node whose stored path is consistent with its resolved
ancestor chain `ancs` (root first: the path decomposes into the chain's
slugs and each ancestor's stored path is the corresponding prefix join),
travel_up returns exactly the proper ancestors youngest-to-oldest, and
parents is exactly the reverse of travel_up, i.e. oldest-to-youngest. -/
theorem travel_up_ancestors (s : Store) (n : Node) (ancs : List Node)
    (hn : n ∈ s)
    (hancs : ∀ a ∈ ancs, a ∈ s)
    (hsplit : pySplit n.path DELIMETER = ancs.map Node.slug ++ [n.slug])
    (hpaths : ∀ (i : Nat) (h : i < ancs.length),
      (ancs.get ⟨i, h⟩).path =
        joinDelim ((ancs.map Node.slug ++ [n.slug]).take (i + 1)))
    (hpk : (n.pk :: ancs.map Node.pk).Nodup)
    (hpathnd : (s.map Node.path).Nodup) :
    travel_up s n = ancs.reverse ∧
      parents s n = (travel_up s n).reverse ∧
      parents s n = ancs := by
  set parts : List String := ancs.map Node.slug ++ [n.slug] with hparts
  have hplen : parts.length = ancs.length + 1 := by simp [hparts]
  have hnpath : n.path = joinDelim parts := by
    have := joinDelim_pySplit n.path
    rw [hsplit] at this
    exact this.symm
  have hnpath' : n.path = joinDelim (parts.take (ancs.length + 1)) := by
    rw [← hplen, List.take_length]
    exact hnpath
  -- membership in the collected branch paths
  have hBP : ∀ x : String,
      x ∈ branchPaths [] (pySplit n.path DELIMETER) ↔
        ∃ i, i < parts.length ∧ x = joinDelim (parts.take (i + 1)) := by
    intro x
    rw [hsplit]
    rw [branchPaths_mem]
    simp [hparts]
  -- the filtered row set
  have hsnd : s.Nodup := List.Nodup.of_map _ hpathnd
  set F : Store := s.filter
    (fun m => (branchPaths [] (pySplit n.path DELIMETER)).contains m.path) with hF
  have hFnd : F.Nodup := List.Nodup.filter _ hsnd
  set T : Store := n :: ancs.reverse with hT
  have hTsub : ∀ m ∈ T, m ∈ s := by
    intro m hm
    rcases List.mem_cons.mp hm with rfl | hm
    · exact hn
    · exact hancs m (List.mem_reverse.mp hm)
  have hTnd : T.Nodup := by
    apply List.Nodup.of_map Node.pk
    rw [hT]
    simp only [List.map_cons, List.map_reverse]
    rw [List.nodup_cons] at hpk ⊢
    exact ⟨by simpa using hpk.1, by simpa using hpk.2⟩
  -- membership equivalence
  have hmemT : ∀ m : Node, m ∈ F ↔ m ∈ T := by
    intro m
    constructor
    · intro hm
      rw [hF, List.mem_filter] at hm
      obtain ⟨hms, hmb⟩ := hm
      have : m.path ∈ branchPaths [] (pySplit n.path DELIMETER) := by
        simpa [List.elem_iff] using hmb
      obtain ⟨i, hi, hx⟩ := (hBP m.path).mp this
      rw [hplen] at hi
      by_cases hcase : i < ancs.length
      · have hpath_i := hpaths i hcase
        have : m = ancs.get ⟨i, hcase⟩ :=
          eq_of_path_eq hpathnd hms (hancs _ (List.get_mem ancs _ _)) (by rw [hx, hpath_i])
        rw [this]
        exact List.mem_cons_of_mem _ (List.mem_reverse.mpr (List.get_mem ancs _ _))
      · have hieq : i = ancs.length := by omega
        have : m = n := by
          apply eq_of_path_eq hpathnd hms hn
          rw [hx, hieq, ← hnpath']
        rw [hT, this]
        exact List.mem_cons_self n _
    · intro hm
      rw [hF, List.mem_filter]
      refine ⟨hTsub m hm, ?_⟩
      rw [hT] at hm
      rcases List.mem_cons.mp hm with rfl | hm
      · have : m.path ∈ branchPaths [] (pySplit m.path DELIMETER) := by
          apply (hBP m.path).mpr
          exact ⟨ancs.length, by omega, hnpath'⟩
        simpa [List.elem_iff] using this
      · obtain ⟨i, hi⟩ := List.get_of_mem (List.mem_reverse.mp hm)
        have : m.path ∈ branchPaths [] (pySplit n.path DELIMETER) := by
          apply (hBP m.path).mpr
          refine ⟨i, by rw [hplen]; omega, ?_⟩
          rw [← hi]
          exact hpaths i i.isLt
        simpa [List.elem_iff] using this
  -- F and T are permutations of one another
  have hperm : F.Perm T := by
    apply List.perm_of_nodup_nodup_toFinset_eq hFnd hTnd
    apply Finset.ext
    intro m
    simp only [List.mem_toFinset]
    exact hmemT m
  -- T is sorted by descending path
  have hTsorted : T.Pairwise pathGeP := by
    rw [hT]
    rw [List.pairwise_cons]
    constructor
    · intro a ha
      obtain ⟨i, hi⟩ := List.get_of_mem (List.mem_reverse.mp ha)
      show pathGe n a = true
      rw [pathGe, pathLe, Bool.or_eq_true]
      left
      rw [← hi, hpaths i i.isLt, hnpath']
      exact joinDelim_take_lt parts (i + 1) (ancs.length + 1) (by omega)
        (by have := i.isLt; omega) (by omega)
    · rw [List.pairwise_reverse]
      rw [List.pairwise_iff_get]
      intro i j hij
      show pathGe (ancs.get j) (ancs.get i) = true
      rw [pathGe, pathLe, Bool.or_eq_true]
      left
      rw [hpaths i i.isLt, hpaths j j.isLt]
      exact joinDelim_take_lt parts (i + 1) (j + 1) (by omega)
        (by exact Nat.succ_lt_succ hij) (by have := j.isLt; rw [hplen]; omega)
  -- the sorted filter equals T
  have hbranch : branch s n = T := by
    rw [branch]
    apply eq_of_perm_of_pairwise ((List.perm_insertionSort pathGeP _).trans hperm)
      (List.sorted_insertionSort pathGeP _) hTsorted
    intro a ha b hb hr1 hr2
    have haF : a ∈ F := ((List.perm_insertionSort pathGeP _).mem_iff).mp ha
    have hbF : b ∈ F := ((List.perm_insertionSort pathGeP _).mem_iff).mp hb
    rw [hF, List.mem_filter] at haF hbF
    exact eq_of_path_eq hpathnd haF.1 hbF.1 (pathLe_antisymm_path hr2 hr1)
  have hnotpk : ∀ a ∈ ancs.reverse, (a.pk == n.pk) = false := by
    intro a ha
    obtain ⟨i, hi⟩ := List.get_of_mem (List.mem_reverse.mp ha)
    rw [List.nodup_cons] at hpk
    have : a.pk ∈ ancs.map Node.pk := by
      rw [← hi]
      exact List.mem_map_of_mem _ (List.get_mem ancs _ _)
    rw [beq_eq_false_iff_ne]
    intro hc
    exact hpk.1 (hc ▸ this)
  have htup : travel_up s n = ancs.reverse := by
    rw [travel_up, hbranch, hT]
    rw [List.filter_cons]
    simp only [beq_self_eq_true, Bool.not_true, if_false]
    apply List.filter_eq_self.mpr
    intro a ha
    rw [hnotpk a ha]
    rfl
  refine ⟨htup, rfl, ?_⟩
  rw [parents, htup, List.reverse_reverse]

/-- Witness for C8 on the concrete store: the grandchild `d` has
travel_up `[b, a]` (youngest first) and parents `[a, b]`. -/
theorem travel_up_ancestors_witness :
    travel_up cStore cD = [cB, cA] ∧ parents cStore cD = [cA, cB] := by
  have h := travel_up_ancestors cStore cD [cA, cB]
    (by decide) (by decide) (by decide) (by decide) (by decide) (by decide)
  exact ⟨h.1, h.2.2⟩

/-- Shape of a row: every column except the recomputed `path`. -/
def shapeEq (a b : Node) : Prop :=
  a.pk = b.pk ∧ a.name = b.name ∧ a.slug = b.slug ∧ a.sites = b.sites ∧
    a.parent = b.parent ∧ a.order = b.order

theorem shapeEq_refl (a : Node) : shapeEq a a :=
  ⟨rfl, rfl, rfl, rfl, rfl, rfl⟩

theorem shapeEq_symm {a b : Node} (h : shapeEq a b) : shapeEq b a :=
  ⟨h.1.symm, h.2.1.symm, h.2.2.1.symm, h.2.2.2.1.symm, h.2.2.2.2.1.symm, h.2.2.2.2.2.symm⟩

theorem shapeEq_trans {a b c : Node} (h1 : shapeEq a b) (h2 : shapeEq b c) : shapeEq a c :=
  ⟨h1.1.trans h2.1, h1.2.1.trans h2.2.1, h1.2.2.1.trans h2.2.2.1,
    h1.2.2.2.1.trans h2.2.2.2.1, h1.2.2.2.2.1.trans h2.2.2.2.2.1,
    h1.2.2.2.2.2.trans h2.2.2.2.2.2⟩

theorem node_ext {a b : Node} (h : shapeEq a b) (hp : a.path = b.path) : a = b := by
  obtain ⟨h1, h2, h3, h4, h5, h6⟩ := h
  cases a
  cases b
  simp only at h1 h2 h3 h4 h5 h6 hp
  subst h1 h2 h3 h4 h5 h6 hp
  rfl

/-- Two stores with identical shape, row for row. -/
def sameShape (s t : Store) : Prop := List.Forall₂ shapeEq s t

theorem sameShape_refl (s : Store) : sameShape s s :=
  List.forall₂_same.mpr (fun a _ => shapeEq_refl a)

theorem sameShape_length {s t : Store} (h : sameShape s t) : s.length = t.length :=
  List.Forall₂.length_eq h

theorem sameShape_map_pk {s t : Store} (h : sameShape s t) :
    s.map Node.pk = t.map Node.pk := by
  induction h with
  | nil => rfl
  | cons hr hrest ih => simp [hr.1, ih]

/-- Transport a row membership along a shape equality. -/
theorem sameShape_mem {s t : Store} (h : sameShape s t) {m : Node} (hm : m ∈ s) :
    ∃ m' ∈ t, shapeEq m m' := by
  induction h with
  | nil => simp at hm
  | cons hr hrest ih =>
    rcases List.mem_cons.mp hm with rfl | hm
    · exact ⟨_, List.mem_cons_self _ _, hr⟩
    · obtain ⟨m', hm', hs⟩ := ih hm
      exact ⟨m', List.mem_cons_of_mem _ hm', hs⟩

/-- `find?` by pk, along any pairwise relation that preserves pks. -/
theorem getNode_forall₂ {R : Node → Node → Prop} :
    ∀ {s t : Store}, List.Forall₂ R s t → (∀ a b, R a b → a.pk = b.pk) → ∀ (k : Nat),
      (getNode s k = none ∧ getNode t k = none) ∨
        ∃ a b, getNode s k = some a ∧ getNode t k = some b ∧ R a b := by
  intro s t h hpk
  induction h with
  | nil => intro k; left; exact ⟨rfl, rfl⟩
  | @cons a b l₁ l₂ hr hrest ih =>
    intro k
    by_cases hk : a.pk = k
    · right
      refine ⟨a, b, ?_, ?_, hr⟩
      · simp [getNode, List.find?_cons, hk]
      · simp [getNode, List.find?_cons, ← hpk a b hr, hk]
    · have hbk : ¬(b.pk = k) := by rw [← hpk a b hr]; exact hk
      rcases ih k with ⟨h1, h2⟩ | ⟨x, y, h1, h2, h3⟩
      · left
        constructor
        · simpa [getNode, List.find?_cons, hk] using h1
        · simpa [getNode, List.find?_cons, hbk] using h2
      · right
        refine ⟨x, y, ?_, ?_, h3⟩
        · simpa [getNode, List.find?_cons, hk] using h1
        · simpa [getNode, List.find?_cons, hbk] using h2

/-- The path walk only reads shape (pk, slug, parent): it is invariant
under shape-preserving rewrites of the store. -/
theorem computePath_shape {s t : Store} (h : sameShape s t) :
    ∀ (fuel : Nat) (v : List Nat) (acc : String) (par : Option Nat),
      computePath s fuel v acc par = computePath t fuel v acc par := by
  intro fuel
  induction fuel with
  | zero =>
    intro v acc par
    cases par with
    | none => rfl
    | some ppk => rfl
  | succ fuel ih =>
    intro v acc par
    cases par with
    | none => rfl
    | some ppk =>
      rcases getNode_forall₂ h (fun a b hr => hr.1) ppk with ⟨h1, h2⟩ | ⟨a, b, h1, h2, h3⟩
      · rw [computePath, computePath, h1, h2]
      · rw [computePath, computePath, h1, h2]
        show (if a.pk ∈ v then Except.error SaveError.circular
            else computePath s fuel (a.pk :: v) (a.slug ++ DELIMETER ++ acc) a.parent) =
          (if b.pk ∈ v then Except.error SaveError.circular
            else computePath t fuel (b.pk :: v) (b.slug ++ DELIMETER ++ acc) b.parent)
        rw [h3.1, h3.2.2.1, h3.2.2.2.2.1]
        by_cases hv : b.pk ∈ v
        · rw [if_pos hv, if_pos hv]
        · rw [if_neg hv, if_neg hv]
          exact ih _ _ _

/-- The path save computes for row `m` against store `t` (the call save
makes before its own write). -/
def cpOf (t : Store) (m : Node) : Except SaveError String :=
  computePath t (t.length + 1) [m.pk] m.slug m.parent

theorem cpOf_shape {s t : Store} (h : sameShape s t) (m : Node) :
    cpOf s m = cpOf t m := by
  rw [cpOf, cpOf, sameShape_length h]
  exact computePath_shape h _ _ _ _

/-- The row stored at `k` carries exactly the path the walk yields for it. -/
def goodAt (t : Store) (k : Nat) : Prop :=
  ∃ m, getNode t k = some m ∧ cpOf t m = Except.ok m.path

/-- One save step only rewrites paths, and only to recomputed values:
every row either keeps its old path or now carries the walk's output. -/
def writesOk (s s' : Store) : Prop :=
  List.Forall₂ (fun a b => shapeEq a b ∧ (b.path = a.path ∨ cpOf s' b = Except.ok b.path)) s s'

theorem forall₂_mono_shape {R : Node → Node → Prop} (hR : ∀ a b, R a b → shapeEq a b) :
    ∀ {s t : Store}, List.Forall₂ R s t → sameShape s t := by
  intro s t h
  induction h with
  | nil => exact List.Forall₂.nil
  | cons hr hrest ih => exact List.Forall₂.cons (hR _ _ hr) ih

theorem writesOk_sameShape {s s' : Store} (h : writesOk s s') : sameShape s s' :=
  forall₂_mono_shape (fun a b hr => hr.1) h

theorem writesOk_refl (s : Store) : writesOk s s :=
  List.forall₂_same.mpr (fun a _ => ⟨shapeEq_refl a, Or.inl rfl⟩)

theorem writesOk_trans {s1 s2 s3 : Store} (h12 : writesOk s1 s2) (h23 : writesOk s2 s3) :
    writesOk s1 s3 := by
  have hshape23 : sameShape s2 s3 := writesOk_sameShape h23
  rw [writesOk, List.forall₂_iff_get] at h12 h23 ⊢
  obtain ⟨hl12, h12⟩ := h12
  obtain ⟨hl23, h23⟩ := h23
  refine ⟨hl12.trans hl23, ?_⟩
  intro i h1 h3
  have h2 : i < s2.length := by omega
  obtain ⟨hs12, hp12⟩ := h12 i h1 h2
  obtain ⟨hs23, hp23⟩ := h23 i h2 h3
  refine ⟨shapeEq_trans hs12 hs23, ?_⟩
  rcases hp23 with hp23 | hp23
  · rcases hp12 with hp12 | hp12
    · exact Or.inl (hp23.trans hp12)
    · right
      have heq : s3.get ⟨i, h3⟩ = s2.get ⟨i, h2⟩ := node_ext (shapeEq_symm hs23) hp23
      rw [heq, ← cpOf_shape hshape23]
      exact hp12
  · exact Or.inr hp23

theorem goodAt_preserved {s s' : Store} (h : writesOk s s') {k : Nat}
    (hg : goodAt s k) : goodAt s' k := by
  obtain ⟨m, hm, hcp⟩ := hg
  have hshape : sameShape s s' := writesOk_sameShape h
  rcases getNode_forall₂ h (fun a b hr => hr.1.1) k with ⟨h1, h2⟩ | ⟨a, b, h1, h2, h3⟩
  · rw [hm] at h1
    exact absurd h1 (by simp)
  · rw [hm] at h1
    have ha : a = m := by
      have := h1.symm
      simpa using this
    subst ha
    obtain ⟨hsh, hdisj⟩ := h3
    rcases hdisj with hpath | hcp'
    · refine ⟨b, h2, ?_⟩
      have hbm : b = a := node_ext (shapeEq_symm hsh) hpath
      rw [hbm, ← cpOf_shape hshape]
      rw [hbm] at hpath
      exact hcp
    · exact ⟨b, h2, hcp'⟩

/-- `Desc s root d`: the store holds a chain of parent links from a row
with pk `d` down to `root` — d is in the subtree strictly below `root`. -/
inductive Desc (s : Store) (root : Nat) : Nat → Prop
  | child (m : Node) : m ∈ s → m.parent = some root → Desc s root m.pk
  | step (m : Node) (q : Nat) : Desc s root q → m ∈ s → m.parent = some q →
      Desc s root m.pk

theorem Desc_shape {s t : Store} (h : sameShape s t) {root d : Nat}
    (hd : Desc s root d) : Desc t root d := by
  induction hd with
  | child m hm hp =>
    obtain ⟨m', hm', hs⟩ := sameShape_mem h hm
    have := @Desc.child t root m' hm' (by rw [← hs.2.2.2.2.1]; exact hp)
    rwa [← hs.1] at this
  | step m q hq hm hp ih =>
    obtain ⟨m', hm', hs⟩ := sameShape_mem h hm
    have := @Desc.step t root m' q ih hm' (by rw [← hs.2.2.2.2.1]; exact hp)
    rwa [← hs.1] at this

theorem Desc_decompose {s : Store} {root d : Nat} (h : Desc s root d) :
    ∃ c ∈ s, c.parent = some root ∧ (d = c.pk ∨ Desc s c.pk d) := by
  induction h with
  | child m hm hp => exact ⟨m, hm, hp, Or.inl rfl⟩
  | step m q hq hm hp ih =>
    obtain ⟨c, hc, hcp, hcase⟩ := ih
    refine ⟨c, hc, hcp, Or.inr ?_⟩
    rcases hcase with rfl | hdq
    · exact Desc.child m hm hp
    · exact Desc.step m q hdq hm hp

theorem updateNode_forall₂ {s : Store} {m n : Node}
    (hnodup : (s.map Node.pk).Nodup) (hm : m ∈ s) (hpk : m.pk = n.pk) :
    List.Forall₂ (fun a b => (¬(a.pk = n.pk) ∧ b = a) ∨ (a = m ∧ b = n)) s
      (updateNode s n) := by
  have hany : s.any (fun a => a.pk == n.pk) = true := by
    rw [List.any_eq_true]
    exact ⟨m, hm, by simp [hpk]⟩
  rw [updateNode, if_pos hany]
  rw [List.forall₂_map_right_iff]
  rw [List.forall₂_same]
  intro a ha
  by_cases hak : a.pk = n.pk
  · have ham : a = m := List.inj_on_of_nodup_map hnodup ha hm (hak.trans hpk.symm)
    right
    exact ⟨ham, by simp [hak]⟩
  · left
    exact ⟨hak, by simp [hak]⟩

/-- Membership in `children_all` from a stored row with matching parent. -/
theorem children_all_mem {s : Store} {k : Nat} {c : Node} :
    c ∈ children_all s k ↔ c ∈ s ∧ c.parent = some k := by
  rw [children_all]
  rw [(List.perm_insertionSort orderLeP _).mem_iff]
  rw [List.mem_filter]
  simp

/-- Main save invariant: every row of the result either kept its path or
carries exactly the path the walk computes for it in the final store; and
on success, the saved node and every descendant carry recomputed paths. -/
theorem saveNode_writesOk :
    ∀ (fuel : Nat) (s : Store) (n : Node) (s' : Store) (e : Option SaveError),
      saveNode fuel s n = (s', e) →
      (s.map Node.pk).Nodup →
      (∃ m ∈ s, shapeEq m n) →
      writesOk s s' ∧
        (e = none → goodAt s' n.pk ∧ ∀ d, Desc s n.pk d → goodAt s' d) := by
  intro fuel
  induction fuel with
  | zero =>
    intro s n s' e hsave hnodup hm
    rw [saveNode] at hsave
    have h1 : s = s' := congrArg Prod.fst hsave
    have h2 : (some SaveError.fuelOut : Option SaveError) = e := congrArg Prod.snd hsave
    subst h1
    refine ⟨writesOk_refl s, ?_⟩
    intro hco
    rw [← h2] at hco
    simp at hco
  | succ fuel ih =>
    intro s n s' e hsave hnodup hm
    rw [saveNode] at hsave
    cases hcp : computePath s (s.length + 1) [n.pk] n.slug n.parent with
    | error e0 =>
      rw [hcp] at hsave
      have h1 : s = s' := congrArg Prod.fst hsave
      have h2 : (some e0 : Option SaveError) = e := congrArg Prod.snd hsave
      subst h1
      refine ⟨writesOk_refl s, ?_⟩
      intro hco
      rw [← h2] at hco
      simp at hco
    | ok P =>
      rw [hcp] at hsave
      obtain ⟨m, hmem, hshm⟩ := hm
      have hpkm : m.pk = n.pk := hshm.1
      have hshm' : shapeEq m { n with path := P } := hshm
      have f2 := updateNode_forall₂ (n := { n with path := P }) hnodup hmem hpkm
      have hss1 : sameShape s (updateNode s { n with path := P }) := by
        apply forall₂_mono_shape ?_ f2
        intro a b hr
        rcases hr with ⟨hne, rfl⟩ | ⟨rfl, rfl⟩
        · exact shapeEq_refl _
        · exact hshm'
      have hlen1 : (updateNode s { n with path := P }).length = s.length :=
        (sameShape_length hss1).symm
      have hcp1 : cpOf (updateNode s { n with path := P }) { n with path := P } =
          Except.ok P := by
        show computePath (updateNode s { n with path := P })
          ((updateNode s { n with path := P }).length + 1) [n.pk] n.slug n.parent =
            Except.ok P
        rw [hlen1, ← computePath_shape hss1]
        exact hcp
      have hws1 : writesOk s (updateNode s { n with path := P }) := by
        apply List.Forall₂.imp ?_ f2
        intro a b hr
        rcases hr with ⟨hne, rfl⟩ | ⟨rfl, rfl⟩
        · exact ⟨shapeEq_refl _, Or.inl rfl⟩
        · exact ⟨hshm', Or.inr hcp1⟩
      have hnodup1 : ((updateNode s { n with path := P }).map Node.pk).Nodup := by
        rw [← sameShape_map_pk hss1]
        exact hnodup
      have hget1 : getNode (updateNode s { n with path := P }) n.pk =
          some { n with path := P } := by
        rcases getNode_forall₂ f2 (fun a b hr => by
            rcases hr with ⟨hne, rfl⟩ | ⟨rfl, rfl⟩
            · rfl
            · exact hpkm) n.pk with ⟨h1, h2⟩ | ⟨a, b, h1, h2, h3⟩
        · rw [getNode, List.find?_eq_none] at h1
          exact absurd (by simp [hpkm] : (m.pk == n.pk) = true) (h1 m hmem)
        · rcases h3 with ⟨hne, rfl⟩ | ⟨rfl, rfl⟩
          · have := List.find?_some h1
            simp at this
            exact absurd this hne
          · exact h2
      have hcas : ∀ (cs : List Node) (t t' : Store) (e2 : Option SaveError),
          cascade (fun s2 c => saveNode fuel s2 c) t P cs = (t', e2) →
          (t.map Node.pk).Nodup →
          (∀ c ∈ cs, ∃ mc ∈ t, shapeEq mc c) →
          writesOk t t' ∧
            (e2 = none → ∀ c ∈ cs,
              goodAt t' c.pk ∧ ∀ d, Desc t c.pk d → goodAt t' d) := by
        intro cs
        induction cs with
        | nil =>
          intro t t' e2 hc hnd hsh
          rw [cascade] at hc
          have h1 : t = t' := congrArg Prod.fst hc
          have h2 : (none : Option SaveError) = e2 := congrArg Prod.snd hc
          subst h1
          refine ⟨writesOk_refl t, ?_⟩
          intro _ c hc'
          exact absurd hc' (List.not_mem_nil c)
        | cons c cs ihc =>
          intro t t' e2 hc hnd hsh
          rw [cascade] at hc
          rcases hsv : saveNode fuel t (update_path c P) with ⟨t2, e3⟩
          rw [hsv] at hc
          have hshc : ∃ mc ∈ t, shapeEq mc (update_path c P) := hsh c (List.mem_cons_self c cs)
          have hmain := ih t (update_path c P) t2 e3 hsv hnd hshc
          cases e3 with
          | some err =>
            have h1 : t2 = t' := congrArg Prod.fst hc
            have h2 : (some err : Option SaveError) = e2 := congrArg Prod.snd hc
            subst h1
            refine ⟨hmain.1, ?_⟩
            intro hco
            rw [← h2] at hco
            simp at hco
          | none =>
            have hws12 := hmain.1
            have hcov := hmain.2 rfl
            have hshape12 : sameShape t t2 := writesOk_sameShape hws12
            have hnd2 : (t2.map Node.pk).Nodup := by
              rw [← sameShape_map_pk hshape12]
              exact hnd
            have hsh2 : ∀ c' ∈ cs, ∃ mc ∈ t2, shapeEq mc c' := by
              intro c' hc'
              obtain ⟨mc, hmc, hsc⟩ := hsh c' (List.mem_cons_of_mem c hc')
              obtain ⟨mc2, hmc2, hsc2⟩ := sameShape_mem hshape12 hmc
              exact ⟨mc2, hmc2, shapeEq_trans (shapeEq_symm hsc2) hsc⟩
            obtain ⟨hws23, hcov23⟩ := ihc t2 t' e2 hc hnd2 hsh2
            refine ⟨writesOk_trans hws12 hws23, ?_⟩
            intro hco c' hc'
            rcases List.mem_cons.mp hc' with rfl | hc'
            · refine ⟨goodAt_preserved hws23 hcov.1, ?_⟩
              intro d hd
              exact goodAt_preserved hws23 (hcov.2 d hd)
            · obtain ⟨hg, hdesc⟩ := hcov23 hco c' hc'
              refine ⟨hg, ?_⟩
              intro d hd
              exact hdesc d (Desc_shape hshape12 hd)
      obtain ⟨hws_cas, hcov_cas⟩ := hcas
        (children_all (updateNode s { n with path := P }) n.pk)
        (updateNode s { n with path := P }) s' e hsave hnodup1
        (fun c hc => ⟨c, (children_all_mem.mp hc).1, shapeEq_refl c⟩)
      refine ⟨writesOk_trans hws1 hws_cas, ?_⟩
      intro hco
      have hgood1 : goodAt (updateNode s { n with path := P }) n.pk :=
        ⟨{ n with path := P }, hget1, hcp1⟩
      refine ⟨goodAt_preserved hws_cas hgood1, ?_⟩
      intro d hd
      obtain ⟨c, hcmem, hcparent, hcase⟩ := Desc_decompose hd
      obtain ⟨c1, hc1mem, hsc1⟩ := sameShape_mem hss1 hcmem
      have hc1 : c1 ∈ children_all (updateNode s { n with path := P }) n.pk :=
        children_all_mem.mpr ⟨hc1mem, by rw [← hsc1.2.2.2.2.1]; exact hcparent⟩
      obtain ⟨hgc, hdc⟩ := hcov_cas hco c1 hc1
      rcases hcase with rfl | hdesc
      · rw [hsc1.1]
        exact hgc
      · have hd1 : Desc (updateNode s { n with path := P }) c.pk d := Desc_shape hss1 hdesc
        rw [hsc1.1] at hd1
        exact hdc d hd1

theorem computePath_none_eq (s : Store) (fuel : Nat) (v : List Nat) (acc : String) :
    computePath s fuel v acc none = Except.ok acc := by
  cases fuel <;> rfl

theorem computePath_some_eq (s : Store) (fuel : Nat) (v : List Nat) (acc : String)
    (ppk : Nat) (p : Node) (hg : getNode s ppk = some p) :
    computePath s (fuel + 1) v acc (some ppk) =
      if p.pk ∈ v then Except.error SaveError.circular
      else computePath s fuel (p.pk :: v) (p.slug ++ DELIMETER ++ acc) p.parent := by
  rw [computePath, hg]

theorem computePath_missing_eq (s : Store) (fuel : Nat) (v : List Nat) (acc : String)
    (ppk : Nat) (hg : getNode s ppk = none) :
    computePath s (fuel + 1) v acc (some ppk) = Except.error SaveError.missingParent := by
  rw [computePath, hg]

theorem computePath_fuel_mono {s : Store} :
    ∀ (fuel fuel' : Nat) (v : List Nat) (acc r : String) (par : Option Nat),
      computePath s fuel v acc par = Except.ok r → fuel ≤ fuel' →
      computePath s fuel' v acc par = Except.ok r := by
  intro fuel
  induction fuel with
  | zero =>
    intro fuel' v acc r par h hle
    cases par with
    | none =>
      rw [computePath_none_eq] at h
      rw [computePath_none_eq]
      exact h
    | some ppk => simp [computePath] at h
  | succ fuel ihf =>
    intro fuel' v acc r par h hle
    cases par with
    | none =>
      rw [computePath_none_eq] at h
      rw [computePath_none_eq]
      exact h
    | some ppk =>
      obtain ⟨f', rfl⟩ : ∃ f', fuel' = f' + 1 := ⟨fuel' - 1, by omega⟩
      cases hg : getNode s ppk with
      | none =>
        rw [computePath_missing_eq s fuel v acc ppk hg] at h
        exact absurd h (by simp)
      | some p =>
        rw [computePath_some_eq s fuel v acc ppk p hg] at h
        rw [computePath_some_eq s f' v acc ppk p hg]
        by_cases hv : p.pk ∈ v
        · rw [if_pos hv] at h
          exact absurd h (by simp)
        · rw [if_neg hv] at h ⊢
          exact ihf f' _ _ _ _ h (by omega)

/-- A walk that already has `x` in its visited set never reads row `x`, so
it is insensitive to changes of the row stored at pk `x`. -/
theorem computePath_agree_ok {s t : Store} {x : Nat}
    (hg : ∀ k, ¬(k = x) → getNode s k = getNode t k) :
    ∀ (fuel : Nat) (v : List Nat) (acc r : String) (par : Option Nat),
      x ∈ v → computePath s fuel v acc par = Except.ok r →
      computePath t fuel v acc par = Except.ok r := by
  intro fuel
  induction fuel with
  | zero =>
    intro v acc r par hx h
    cases par with
    | none =>
      rw [computePath_none_eq] at h
      rw [computePath_none_eq]
      exact h
    | some ppk => simp [computePath] at h
  | succ fuel ihf =>
    intro v acc r par hx h
    cases par with
    | none =>
      rw [computePath_none_eq] at h
      rw [computePath_none_eq]
      exact h
    | some ppk =>
      by_cases hpx : ppk = x
      · subst hpx
        cases hgs : getNode s ppk with
        | none =>
          rw [computePath_missing_eq s fuel v acc ppk hgs] at h
          exact absurd h (by simp)
        | some p =>
          have hppk : p.pk = ppk := by
            have := List.find?_some hgs
            simpa using this
          rw [computePath_some_eq s fuel v acc ppk p hgs, if_pos (hppk ▸ hx)] at h
          exact absurd h (by simp)
      · have hgeq := hg ppk hpx
        cases hgs : getNode s ppk with
        | none =>
          rw [computePath_missing_eq s fuel v acc ppk hgs] at h
          exact absurd h (by simp)
        | some p =>
          rw [computePath_some_eq s fuel v acc ppk p hgs] at h
          rw [computePath_some_eq t fuel v acc ppk p (hgeq ▸ hgs)]
          by_cases hv : p.pk ∈ v
          · rw [if_pos hv] at h
            exact absurd h (by simp)
          · rw [if_neg hv] at h ⊢
            exact ihf _ _ _ _ (List.mem_cons_of_mem _ hx) h

theorem find?_pk_map_update {n : Node} {k : Nat} (hk : ¬(k = n.pk)) :
    ∀ (s : Store),
      List.find? (fun m => m.pk == k) (s.map (fun m => if m.pk == n.pk then n else m)) =
        List.find? (fun m => m.pk == k) s := by
  intro s
  induction s with
  | nil => rfl
  | cons a t iht =>
    rw [List.map_cons, List.find?_cons, List.find?_cons]
    by_cases hak : a.pk = n.pk
    · have h1 : (if (a.pk == n.pk) = true then n else a) = n := by simp [hak]
      rw [h1]
      have hnk : (n.pk == k) = false := by
        simp
        intro hc
        exact hk hc.symm
      have hak2 : (a.pk == k) = false := by
        rw [hak]
        exact hnk
      rw [hnk, hak2]
      exact iht
    · have h1 : (if (a.pk == n.pk) = true then n else a) = a := by simp [hak]
      rw [h1]
      cases hachk : (a.pk == k) with
      | true => rfl
      | false => exact iht

theorem getNode_updateNode_ne {s : Store} {n : Node} {k : Nat} (hk : ¬(k = n.pk)) :
    getNode (updateNode s n) k = getNode s k := by
  rw [updateNode]
  by_cases hany : s.any (fun m => m.pk == n.pk) = true
  · rw [if_pos hany]
    exact find?_pk_map_update hk s
  · rw [if_neg hany]
    rw [getNode, getNode, List.find?_append]
    have hnone : List.find? (fun m => m.pk == k) [n] = none := by
      simp
      intro hc
      exact hk hc.symm
    rw [hnone]
    exact Option.or_none

theorem getNode_of_mem {s : Store} (hnd : (s.map Node.pk).Nodup) {m : Node} (hm : m ∈ s) :
    getNode s m.pk = some m := by
  induction s with
  | nil => simp at hm
  | cons a t iht =>
    simp only [List.map_cons, List.nodup_cons] at hnd
    rcases List.mem_cons.mp hm with rfl | hm
    · simp [getNode, List.find?_cons]
    · rw [getNode, List.find?_cons]
      have hne : (a.pk == m.pk) = false := by
        simp
        intro hc
        exact hnd.1 (hc ▸ List.mem_map_of_mem Node.pk hm)
      rw [hne]
      exact iht hnd.2 hm

theorem getNode_updateNode_self {s : Store} {n : Node}
    (hnd : (s.map Node.pk).Nodup) :
    getNode (updateNode s n) n.pk = some n := by
  rw [updateNode]
  by_cases hany : s.any (fun m => m.pk == n.pk) = true
  · rw [if_pos hany]
    obtain ⟨m, hm, hmk⟩ := List.any_eq_true.mp hany
    have hmk' : m.pk = n.pk := by simpa using hmk
    have hn' : n = (fun m => if m.pk == n.pk then n else m) m := by simp [hmk']
    have hmem : (fun m => if m.pk == n.pk then n else m) m ∈
        s.map (fun m => if m.pk == n.pk then n else m) := List.mem_map_of_mem _ hm
    rw [← hn'] at hmem
    have hnd2 : ((s.map (fun m => if m.pk == n.pk then n else m)).map Node.pk).Nodup := by
      have : (s.map (fun m => if m.pk == n.pk then n else m)).map Node.pk =
          s.map Node.pk := by
        rw [List.map_map]
        apply List.map_congr_left
        intro a ha
        by_cases hak : a.pk = n.pk
        · simp [hak]
        · simp [hak]
      rw [this]
      exact hnd
    exact getNode_of_mem hnd2 hmem
  · rw [if_neg hany]
    rw [getNode, List.find?_append]
    have hnone : List.find? (fun m => m.pk == n.pk) s = none := by
      rw [List.find?_eq_none]
      intro x hx
      simp
      intro hc
      exact hany (List.any_eq_true.mpr ⟨x, hx, by simp [hc]⟩)
    rw [hnone]
    simp

theorem updateNode_nodup {s : Store} {n : Node} (hnd : (s.map Node.pk).Nodup) :
    ((updateNode s n).map Node.pk).Nodup := by
  rw [updateNode]
  by_cases hany : s.any (fun m => m.pk == n.pk) = true
  · rw [if_pos hany]
    have heq : (s.map (fun m => if m.pk == n.pk then n else m)).map Node.pk =
        s.map Node.pk := by
      rw [List.map_map]
      apply List.map_congr_left
      intro a ha
      by_cases hak : a.pk = n.pk
      · simp [hak]
      · simp [hak]
    rw [heq]
    exact hnd
  · rw [if_neg hany]
    rw [List.map_append]
    rw [List.nodup_append]
    refine ⟨hnd, by simp, ?_⟩
    intro x hx
    simp only [List.map_cons, List.map_nil, List.mem_cons, List.not_mem_nil, or_false]
    intro hc
    subst hc
    obtain ⟨m, hm, hmk⟩ := List.mem_map.mp hx
    exact hany (List.any_eq_true.mpr ⟨m, hm, by simp [hmk]⟩)

theorem updateNode_length_ge (s : Store) (n : Node) :
    s.length ≤ (updateNode s n).length := by
  rw [updateNode]
  by_cases hany : s.any (fun m => m.pk == n.pk) = true
  · rw [if_pos hany]
    simp
  · rw [if_neg hany]
    simp

theorem sameShape_symm {s t : Store} (h : sameShape s t) : sameShape t s := by
  induction h with
  | nil => exact List.Forall₂.nil
  | cons hr hrest ih => exact List.Forall₂.cons (shapeEq_symm hr) ih

theorem Desc_parent {s : Store} {root d : Nat} (h : Desc s root d) :
    ∃ m q, m ∈ s ∧ m.pk = d ∧ m.parent = some q ∧ (q = root ∨ Desc s root q) := by
  cases h with
  | child m hm hp => exact ⟨m, root, hm, rfl, hp, Or.inl rfl⟩
  | step m q hq hm hp => exact ⟨m, q, hm, rfl, hp, Or.inr hq⟩

/-- Standalone version of the cascade invariant, for use after the root
write has been peeled off by hand. -/
theorem cascade_writesOk (fuel : Nat) :
    ∀ (cs : List Node) (t t' : Store) (Pp : String) (e2 : Option SaveError),
      cascade (fun s2 c => saveNode fuel s2 c) t Pp cs = (t', e2) →
      (t.map Node.pk).Nodup →
      (∀ c ∈ cs, ∃ mc ∈ t, shapeEq mc c) →
      writesOk t t' ∧
        (e2 = none → ∀ c ∈ cs,
          goodAt t' c.pk ∧ ∀ d, Desc t c.pk d → goodAt t' d) := by
  intro cs
  induction cs with
  | nil =>
    intro t t' Pp e2 hc hnd hsh
    rw [cascade] at hc
    have h1 : t = t' := congrArg Prod.fst hc
    have h2 : (none : Option SaveError) = e2 := congrArg Prod.snd hc
    subst h1
    refine ⟨writesOk_refl t, ?_⟩
    intro _ c hc'
    exact absurd hc' (List.not_mem_nil c)
  | cons c cs ihc =>
    intro t t' Pp e2 hc hnd hsh
    rw [cascade] at hc
    rcases hsv : saveNode fuel t (update_path c Pp) with ⟨t2, e3⟩
    rw [hsv] at hc
    have hshc : ∃ mc ∈ t, shapeEq mc (update_path c Pp) := hsh c (List.mem_cons_self c cs)
    have hmain := saveNode_writesOk fuel t (update_path c Pp) t2 e3 hsv hnd hshc
    cases e3 with
    | some err =>
      have h1 : t2 = t' := congrArg Prod.fst hc
      have h2 : (some err : Option SaveError) = e2 := congrArg Prod.snd hc
      subst h1
      refine ⟨hmain.1, ?_⟩
      intro hco
      rw [← h2] at hco
      simp at hco
    | none =>
      have hws12 := hmain.1
      have hcov := hmain.2 rfl
      have hshape12 : sameShape t t2 := writesOk_sameShape hws12
      have hnd2 : (t2.map Node.pk).Nodup := by
        rw [← sameShape_map_pk hshape12]
        exact hnd
      have hsh2 : ∀ c' ∈ cs, ∃ mc ∈ t2, shapeEq mc c' := by
        intro c' hc'
        obtain ⟨mc, hmc, hsc⟩ := hsh c' (List.mem_cons_of_mem c hc')
        obtain ⟨mc2, hmc2, hsc2⟩ := sameShape_mem hshape12 hmc
        exact ⟨mc2, hmc2, shapeEq_trans (shapeEq_symm hsc2) hsc⟩
      obtain ⟨hws23, hcov23⟩ := ihc t2 t' Pp e2 hc hnd2 hsh2
      refine ⟨writesOk_trans hws12 hws23, ?_⟩
      intro hco c' hc'
      rcases List.mem_cons.mp hc' with rfl | hc'
      · refine ⟨goodAt_preserved hws23 hcov.1, ?_⟩
        intro d hd
        exact goodAt_preserved hws23 (hcov.2 d hd)
      · obtain ⟨hg, hdesc⟩ := hcov23 hco c' hc'
        refine ⟨hg, ?_⟩
        intro d hd
        exact hdesc d (Desc_shape hshape12 hd)

/-- Two successful walks from the same parent pointer compute the same
prefix: each result is that common prefix glued onto its own seed. -/
theorem computePath_suffix {s : Store} :
    ∀ (fuel : Nat) (v : List Nat) (a : String) (par : Option Nat) (r : String)
      (fuel' : Nat) (v' : List Nat) (a' r' : String),
      computePath s fuel v a par = Except.ok r →
      computePath s fuel' v' a' par = Except.ok r' →
      ∃ pre : List Char, r.data = pre ++ a.data ∧ r'.data = pre ++ a'.data := by
  intro fuel
  induction fuel with
  | zero =>
    intro v a par r fuel' v' a' r' h1 h2
    cases par with
    | none =>
      rw [computePath_none_eq] at h1 h2
      have hr : a = r := by simpa using h1
      have hr' : a' = r' := by simpa using h2
      exact ⟨[], by rw [← hr]; simp, by rw [← hr']; simp⟩
    | some ppk => simp [computePath] at h1
  | succ fuel ihf =>
    intro v a par r fuel' v' a' r' h1 h2
    cases par with
    | none =>
      rw [computePath_none_eq] at h1 h2
      have hr : a = r := by simpa using h1
      have hr' : a' = r' := by simpa using h2
      exact ⟨[], by rw [← hr]; simp, by rw [← hr']; simp⟩
    | some ppk =>
      cases fuel' with
      | zero => simp [computePath] at h2
      | succ fuel'' =>
        cases hg : getNode s ppk with
        | none =>
          rw [computePath_missing_eq s fuel v a ppk hg] at h1
          exact absurd h1 (by simp)
        | some p =>
          rw [computePath_some_eq s fuel v a ppk p hg] at h1
          rw [computePath_some_eq s fuel'' v' a' ppk p hg] at h2
          by_cases hv : p.pk ∈ v
          · rw [if_pos hv] at h1
            exact absurd h1 (by simp)
          · rw [if_neg hv] at h1
            by_cases hv' : p.pk ∈ v'
            · rw [if_pos hv'] at h2
              exact absurd h2 (by simp)
            · rw [if_neg hv'] at h2
              obtain ⟨pre, hpre1, hpre2⟩ := ihf _ _ _ _ _ _ _ _ h1 h2
              refine ⟨pre ++ p.slug.data ++ [':', ':'], ?_, ?_⟩
              · rw [hpre1]
                simp [String.data_append, DELIMETER_data]
              · rw [hpre2]
                simp [String.data_append, DELIMETER_data]

/-- Shared backbone for C3 and C9: a successful save leaves the saved row
with its freshly recomputed path, and every row in the subtree rooted at
it satisfies I2 against its parent's stored path; moreover both the row
and its parent carry walk-recomputed paths. -/
theorem save_subtree_I2 {fuel : Nat} {s : Store} {n : Node} {s' : Store}
    (hsave : saveNode fuel s n = (s', none))
    (hnodup : (s.map Node.pk).Nodup) :
    (∃ root', getNode s' n.pk = some root' ∧ cpOf s' root' = Except.ok root'.path) ∧
      ∀ d, Desc s' n.pk d →
        ∃ dn ppk p, getNode s' d = some dn ∧ dn.parent = some ppk ∧
          getNode s' ppk = some p ∧ dn.path = p.path ++ DELIMETER ++ dn.slug ∧
          cpOf s' dn = Except.ok dn.path ∧ cpOf s' p = Except.ok p.path := by
  obtain ⟨f, rfl⟩ : ∃ f, fuel = f + 1 := by
    cases fuel with
    | zero =>
      rw [saveNode] at hsave
      have h2 : (some SaveError.fuelOut : Option SaveError) = none := congrArg Prod.snd hsave
      simp at h2
    | succ f => exact ⟨f, rfl⟩
  rw [saveNode] at hsave
  cases hcp : computePath s (s.length + 1) [n.pk] n.slug n.parent with
  | error e0 =>
    rw [hcp] at hsave
    have h2 : (some e0 : Option SaveError) = none := congrArg Prod.snd hsave
    simp at h2
  | ok P =>
    rw [hcp] at hsave
    -- peel off the root write by hand (it may change the stored shape)
    have hnodup1 : ((updateNode s { n with path := P }).map Node.pk).Nodup :=
      updateNode_nodup hnodup
    have hget1 : getNode (updateNode s { n with path := P }) n.pk =
        some { n with path := P } :=
      getNode_updateNode_self (n := { n with path := P }) hnodup
    have hcp1 : cpOf (updateNode s { n with path := P }) { n with path := P } =
        Except.ok P := by
      show computePath (updateNode s { n with path := P })
        ((updateNode s { n with path := P }).length + 1) [n.pk] n.slug n.parent =
          Except.ok P
      have hagree := computePath_agree_ok
        (s := s) (t := updateNode s { n with path := P }) (x := n.pk)
        (fun k hk => (getNode_updateNode_ne (s := s) (n := { n with path := P }) hk).symm)
        (s.length + 1) [n.pk] n.slug P n.parent (by simp) hcp
      exact computePath_fuel_mono _ _ _ _ _ _ hagree
        (by have := updateNode_length_ge s { n with path := P }; omega)
    obtain ⟨hws, hcov⟩ := cascade_writesOk f
      (children_all (updateNode s { n with path := P }) n.pk)
      (updateNode s { n with path := P }) s' P none hsave hnodup1
      (fun c hc => ⟨c, (children_all_mem.mp hc).1, shapeEq_refl c⟩)
    have hshape : sameShape (updateNode s { n with path := P }) s' :=
      writesOk_sameShape hws
    have hnodup' : (s'.map Node.pk).Nodup := by
      rw [← sameShape_map_pk hshape]
      exact hnodup1
    have hroot : goodAt s' n.pk :=
      goodAt_preserved hws ⟨{ n with path := P }, hget1, hcp1⟩
    have hdesc_good : ∀ d, Desc s' n.pk d → goodAt s' d := by
      intro d hd
      have hd1 : Desc (updateNode s { n with path := P }) n.pk d :=
        Desc_shape (sameShape_symm hshape) hd
      obtain ⟨c, hcmem, hcparent, hcase⟩ := Desc_decompose hd1
      have hc : c ∈ children_all (updateNode s { n with path := P }) n.pk :=
        children_all_mem.mpr ⟨hcmem, hcparent⟩
      obtain ⟨hgc, hdc⟩ := hcov rfl c hc
      rcases hcase with rfl | hdesc
      · exact hgc
      · exact hdc d hdesc
    refine ⟨hroot, ?_⟩
    intro d hd
    obtain ⟨mm, q, hmm, hmpk, hmparent, hqcase⟩ := Desc_parent hd
    have hgd : getNode s' d = some mm := hmpk ▸ getNode_of_mem hnodup' hmm
    obtain ⟨dn, hdn, hcp_d⟩ := hdesc_good d hd
    have hdnm : dn = mm := by
      rw [hdn] at hgd
      simpa using hgd
    subst hdnm
    have hgq : goodAt s' q := by
      rcases hqcase with rfl | hq
      · exact hroot
      · exact hdesc_good q hq
    obtain ⟨p, hp, hcp_p⟩ := hgq
    refine ⟨dn, q, p, hdn, hmparent, hp, ?_, hcp_d, hcp_p⟩
    -- unfold the head step of dn's walk
    have hcp_d' := hcp_d
    rw [cpOf, hmparent] at hcp_d'
    obtain ⟨L, hLpos⟩ : ∃ L, s'.length + 1 = L + 1 := ⟨s'.length, rfl⟩
    rw [hLpos, computePath_some_eq s' L [dn.pk] dn.slug q p hp] at hcp_d'
    by_cases hv : p.pk ∈ [dn.pk]
    · rw [if_pos hv] at hcp_d'
      exact absurd hcp_d' (by simp)
    · rw [if_neg hv] at hcp_d'
      have hcp_p' : computePath s' (s'.length + 1) [p.pk] p.slug p.parent =
          Except.ok p.path := hcp_p
      obtain ⟨pre, hpre1, hpre2⟩ := computePath_suffix L (p.pk :: [dn.pk])
        (p.slug ++ DELIMETER ++ dn.slug) p.parent dn.path (s'.length + 1) [p.pk]
        p.slug p.path hcp_d' hcp_p'
      apply string_ext
      rw [hpre1]
      simp only [String.data_append, DELIMETER_data]
      rw [hpre2]
      simp

/-- C3: after a node's save completes successfully — including the
recursive child updates it triggers — every node in the subtree rooted at
the saved node has a path equal to its parent's stored path plus the
delimiter plus its own slug: the cascade restores invariant I2 for the
whole subtree relative to the new root path (each direct child recomputed
from the new parent path, then recursed into), and the saved root itself
carries its freshly recomputed path. -/
theorem save_cascade_restores_I2 (fuel : Nat) (s : Store) (n : Node) (s' : Store)
    (hsave : saveNode fuel s n = (s', none))
    (hnodup : (s.map Node.pk).Nodup) :
    (∃ root', getNode s' n.pk = some root' ∧ cpOf s' root' = Except.ok root'.path) ∧
      ∀ d, Desc s' n.pk d →
        ∃ dn ppk p, getNode s' d = some dn ∧ dn.parent = some ppk ∧
          getNode s' ppk = some p ∧ dn.path = p.path ++ DELIMETER ++ dn.slug := by
  obtain ⟨hroot, hI2⟩ := save_subtree_I2 hsave hnodup
  refine ⟨hroot, ?_⟩
  intro d hd
  obtain ⟨dn, ppk, p, h1, h2, h3, h4, _, _⟩ := hI2 d hd
  exact ⟨dn, ppk, p, h1, h2, h3, h4⟩

/-- Witness for C3: saving root `a` of the concrete store succeeds and the
grandchild row `d` (a member of the saved subtree) satisfies I2. -/
theorem save_cascade_restores_I2_witness :
    ∃ dn ppk p, getNode cStore 4 = some dn ∧ dn.parent = some ppk ∧
      getNode cStore ppk = some p ∧ dn.path = p.path ++ DELIMETER ++ dn.slug := by
  have h := save_cascade_restores_I2 10 cStore cA cStore (by decide) (by decide)
  apply h.2 4
  exact Desc.step cD 2 (Desc.child cB (by decide) (by decide)) (by decide) (by decide)

theorem splitFirst_sep_le {c : Char} {cs : List Char} :
    ∀ {s pre post : List Char}, splitFirst c cs s = some (pre, post) →
      cs.length + 1 ≤ s.length := by
  intro s
  induction s with
  | nil =>
    intro pre post h
    simp [splitFirst] at h
  | cons a s ih =>
    intro pre post h
    rw [splitFirst] at h
    by_cases hp : (((c :: cs).isPrefixOf (a :: s)) = true)
    · rw [List.isPrefixOf_iff_prefix] at hp
      have := hp.length_le
      simpa using this
    · rw [if_neg hp] at h
      cases heq : splitFirst c cs s with
      | none =>
        rw [heq] at h
        exact absurd h (by simp)
      | some pq =>
        obtain ⟨p', q'⟩ := pq
        have := ih heq
        simp only [List.length_cons]
        omega

theorem splitFirst_append {c : Char} {cs : List Char} :
    ∀ {s pre post : List Char} (t : List Char), splitFirst c cs s = some (pre, post) →
      splitFirst c cs (s ++ t) = some (pre, post ++ t) := by
  intro s
  induction s with
  | nil =>
    intro pre post t h
    simp [splitFirst] at h
  | cons a s ih =>
    intro pre post t h
    rw [splitFirst] at h
    rw [List.cons_append, splitFirst]
    by_cases hp : (((c :: cs).isPrefixOf (a :: s)) = true)
    · have hple : cs.length ≤ s.length := by
        rw [List.isPrefixOf_iff_prefix] at hp
        have := hp.length_le
        simpa using this
      have hp2 : (((c :: cs).isPrefixOf (a :: (s ++ t))) = true) := by
        rw [List.isPrefixOf_iff_prefix] at hp ⊢
        exact hp.trans (by rw [← List.cons_append]; exact List.prefix_append _ _)
      rw [if_pos hp] at h
      rw [if_pos hp2]
      obtain ⟨h1, h2⟩ := Prod.mk.injEq .. ▸ Option.some.injEq .. ▸ h
      subst h1
      subst h2
      rw [List.drop_append_of_le_length hple]
    · rw [if_neg hp] at h
      cases heq : splitFirst c cs s with
      | none =>
        rw [heq] at h
        exact absurd h (by simp)
      | some pq =>
        obtain ⟨p', q'⟩ := pq
        rw [heq] at h
        obtain ⟨h1, h2⟩ := Prod.mk.injEq .. ▸ Option.some.injEq .. ▸ h
        subst h1
        subst h2
        have hslen : cs.length + 1 ≤ s.length := splitFirst_sep_le heq
        have hp2 : ¬(((c :: cs).isPrefixOf (a :: (s ++ t))) = true) := by
          intro hcpre
          apply hp
          rw [List.isPrefixOf_iff_prefix] at hcpre ⊢
          have htake : c :: cs = List.take (c :: cs).length (a :: (s ++ t)) :=
            List.prefix_iff_eq_take.mp hcpre
          have hlen : (c :: cs).length ≤ (a :: s).length := by
            simp only [List.length_cons]
            omega
          have heq2 : List.take (c :: cs).length ((a :: s) ++ t) =
              List.take (c :: cs).length (a :: s) :=
            List.take_append_of_le_length hlen
          rw [List.prefix_iff_eq_take]
          rw [← List.cons_append, heq2] at htake
          exact htake
        rw [if_neg hp2]
        rw [ih t heq]

theorem getLast?_append_right {l l' : List Char} (h : l' ≠ []) :
    (l ++ l').getLast? = l'.getLast? := by
  rw [List.getLast?_append]
  obtain ⟨y, hy⟩ := Option.isSome_iff_exists.mp (List.getLast?_isSome.mpr h)
  rw [hy]
  rfl

theorem countOcc_sep_append_bounded :
    ∀ (n : Nat) (A : List Char), A.length ≤ n → A.getLast? ≠ some ':' → ∀ (B : List Char),
      countOcc ':' [':'] (A ++ ':' :: ':' :: B) =
        countOcc ':' [':'] A + 1 + countOcc ':' [':'] B := by
  intro n
  induction n with
  | zero =>
    intro A hA hlast B
    have hnil : A = [] := List.eq_nil_of_length_eq_zero (Nat.le_zero.mp hA)
    subst hnil
    have hsp : splitFirst ':' [':'] ([] : List Char) = none := rfl
    rw [countOcc_some (splitFirst_boundary [] B hsp hlast), countOcc_none hsp]
    omega
  | succ n ihn =>
    intro A hA hlast B
    cases hsp : splitFirst ':' [':'] A with
    | none =>
      rw [countOcc_some (splitFirst_boundary A B hsp hlast), countOcc_none hsp]
      omega
    | some pq =>
      obtain ⟨pre, post⟩ := pq
      have hdec := splitFirst_decomp hsp
      have hlt := splitFirst_post_lt hsp
      rw [countOcc_some hsp, countOcc_some (splitFirst_append (':' :: ':' :: B) hsp)]
      have hpostne : post ≠ [] := by
        intro hc
        apply hlast
        rw [hdec, hc, List.append_nil]
        rw [@getLast?_append_right _ (':' :: [':']) (by simp)]
        rfl
      have hA_last : A.getLast? = post.getLast? := by
        rw [hdec]
        exact getLast?_append_right hpostne
      have hpostlast : post.getLast? ≠ some ':' := by
        rw [← hA_last]
        exact hlast
      have hrec := ihn post (by omega) hpostlast B
      rw [hrec]
      omega

/-- Counting across an explicit delimiter: when the left part does not end
in `':'`, occurrences add up. -/
theorem countOcc_sep_append (A : List Char) (hlast : A.getLast? ≠ some ':') (B : List Char) :
    countOcc ':' [':'] (A ++ ':' :: ':' :: B) =
      countOcc ':' [':'] A + 1 + countOcc ':' [':'] B :=
  countOcc_sep_append_bounded A.length A le_rfl hlast B

theorem updateNode_mem {s : Store} {n m : Node} (hm : m ∈ updateNode s n) :
    m = n ∨ m ∈ s := by
  rw [updateNode] at hm
  by_cases hany : s.any (fun a => a.pk == n.pk) = true
  · rw [if_pos hany] at hm
    obtain ⟨a, ha, hfa⟩ := List.mem_map.mp hm
    by_cases hak : a.pk = n.pk
    · left
      rw [← hfa]
      simp [hak]
    · right
      rw [← hfa]
      simpa [hak] using ha
  · rw [if_neg hany] at hm
    rcases List.mem_append.mp hm with h | h
    · right
      exact h
    · left
      simpa using h

/-- Slugs never change across a save: every row of the result carries
either the saved node's slug or a slug already present in the store. -/
theorem saveNode_slugs {fuel : Nat} {s : Store} {n : Node} {s' : Store}
    {e : Option SaveError} (hsave : saveNode fuel s n = (s', e))
    (hnodup : (s.map Node.pk).Nodup) :
    ∀ m' ∈ s', m'.slug = n.slug ∨ ∃ m ∈ s, m.slug = m'.slug := by
  cases fuel with
  | zero =>
    rw [saveNode] at hsave
    have h1 : s = s' := congrArg Prod.fst hsave
    subst h1
    intro m' hm'
    exact Or.inr ⟨m', hm', rfl⟩
  | succ f =>
    rw [saveNode] at hsave
    cases hcp : computePath s (s.length + 1) [n.pk] n.slug n.parent with
    | error e0 =>
      rw [hcp] at hsave
      have h1 : s = s' := congrArg Prod.fst hsave
      subst h1
      intro m' hm'
      exact Or.inr ⟨m', hm', rfl⟩
    | ok P =>
      rw [hcp] at hsave
      obtain ⟨hws, _⟩ := cascade_writesOk f
        (children_all (updateNode s { n with path := P }) n.pk)
        (updateNode s { n with path := P }) s' P e hsave (updateNode_nodup hnodup)
        (fun c hc => ⟨c, (children_all_mem.mp hc).1, shapeEq_refl c⟩)
      have hshape := writesOk_sameShape hws
      intro m' hm'
      obtain ⟨m1, hm1, hs1⟩ := sameShape_mem (sameShape_symm hshape) hm'
      rcases updateNode_mem hm1 with rfl | hm1s
      · left
        exact hs1.2.2.1
      · right
        exact ⟨m1, hm1s, hs1.2.2.1.symm⟩

theorem string_data_ne_nil {sl : String} (h : ¬(sl = "")) : sl.data ≠ [] := by
  intro hc
  exact h (string_ext (by simpa using hc))

/-- A slug acceptable to the depth bookkeeping: nonempty, free of the
delimiter, and not ending in the delimiter character. -/
def cleanSlug (sl : String) : Prop :=
  containsDelim sl = false ∧ endsColon sl = false ∧ ¬(sl = "")

instance (sl : String) : Decidable (cleanSlug sl) := by
  unfold cleanSlug
  infer_instance

/-- A recomputed path ends in the row's own slug, so for clean slugs it
does not end in `':'`. -/
theorem cpOf_not_endsColon {t : Store} {p : Node}
    (hcp : cpOf t p = Except.ok p.path) (hclean : cleanSlug p.slug) :
    p.path.data.getLast? ≠ some ':' := by
  obtain ⟨pre, hpre, _⟩ := computePath_suffix (t.length + 1) [p.pk] p.slug p.parent
    p.path (t.length + 1) [p.pk] p.slug p.path hcp hcp
  rw [hpre, getLast?_append_right (string_data_ne_nil hclean.2.2)]
  exact not_endsColon_getLast hclean.2.1

/-- C9 (amended): for a node whose path is produced by the save
computation from a resolved acyclic ancestor chain whose slugs are
non-empty, do not contain the delimiter, and do not end in the delimiter
character `':'` (the extra condition forced by the counterexample), the
depth of the computed path — the delimiter-occurrence count — equals the
number of ancestors in the parent chain, and is 0 exactly for parentless
nodes.  Moreover any successful save over a store of such slugs leaves
every subtree row's depth exceeding its stored parent's depth by exactly
one: the equality is preserved by save and by the cascade. -/
theorem depth_counts_ancestors (s : Store) (n : Node) (chain : List Node)
    (hwalk : walkB s n.parent chain = true)
    (hroot : (match chain.getLast? with
              | none => n.parent = none
              | some c => c.parent = none))
    (hfresh : ∀ m ∈ chain, m.pk ≠ n.pk)
    (hnodup : (chain.map Node.pk).Nodup)
    (hcleanS : ∀ m ∈ s, cleanSlug m.slug)
    (hcleanN : cleanSlug n.slug) :
    (computePath s (s.length + 1) [n.pk] n.slug n.parent =
        Except.ok (joinDelim ((chain.map Node.slug).reverse ++ [n.slug])) ∧
      pyCount (joinDelim ((chain.map Node.slug).reverse ++ [n.slug])) DELIMETER =
        chain.length ∧
      (pyCount (joinDelim ((chain.map Node.slug).reverse ++ [n.slug])) DELIMETER = 0 ↔
        n.parent = none)) ∧
    ∀ (fuel : Nat) (s' : Store), (s.map Node.pk).Nodup →
      saveNode fuel s n = (s', none) →
      ∀ d, Desc s' n.pk d →
        ∃ dn ppk p, getNode s' d = some dn ∧ dn.parent = some ppk ∧
          getNode s' ppk = some p ∧ Node.depth dn = Node.depth p + 1 := by
  have hmem : ∀ m ∈ chain, m ∈ s := walkB_mem hwalk
  have hcleanPart : ∀ sl ∈ (chain.map Node.slug).reverse ++ [n.slug], cleanSlug sl := by
    intro sl hsl
    rcases List.mem_append.mp hsl with hsl | hsl
    · rw [List.mem_reverse] at hsl
      obtain ⟨m, hm, rfl⟩ := List.mem_map.mp hsl
      exact hcleanS m (hmem m hm)
    · rw [List.mem_singleton] at hsl
      subst hsl
      exact hcleanN
  have hcount : pyCount (joinDelim ((chain.map Node.slug).reverse ++ [n.slug])) DELIMETER =
      chain.length := by
    have h := pyCount_joinDelim ((chain.map Node.slug).reverse ++ [n.slug]) (by simp)
      (fun sl hsl => (hcleanPart sl hsl).1)
      (fun sl hsl => by
        rw [List.dropLast_concat] at hsl
        exact (hcleanPart sl (List.mem_append_left _ hsl)).2.1)
    simp only [List.length_append, List.length_reverse, List.length_map,
      List.length_cons, List.length_nil] at h
    omega
  constructor
  · refine ⟨?_, hcount, ?_⟩
    · have hlen : chain.length ≤ s.length := chain_length_le hmem hnodup
      have hok := computePath_ok chain (s.length + 1) [n.pk] n.slug n.parent hwalk hroot
        (fun m hm => by simpa using hfresh m hm) hnodup (by omega)
      rw [foldl_prepend_joinDelim] at hok
      exact hok
    · rw [hcount]
      constructor
      · intro hzero
        have hnil : chain = [] := List.eq_nil_of_length_eq_zero hzero
        subst hnil
        simpa using hroot
      · intro hp
        cases chain with
        | nil => rfl
        | cons c cs =>
          rw [hp] at hwalk
          simp [walkB] at hwalk
  · intro fuel s' hpks hsave d hd
    obtain ⟨_, hI2⟩ := save_subtree_I2 hsave hpks
    obtain ⟨dn, ppk, p, h1, h2, h3, h4, h5, h6⟩ := hI2 d hd
    have hslugs := saveNode_slugs hsave hpks
    have hclean' : ∀ m' ∈ s', cleanSlug m'.slug := by
      intro m' hm'
      rcases hslugs m' hm' with hq | ⟨m, hm, hq⟩
      · rw [hq]
        exact hcleanN
      · rw [← hq]
        exact hcleanS m hm
    have hdn_mem : dn ∈ s' := List.mem_of_find?_eq_some h1
    have hp_mem : p ∈ s' := List.mem_of_find?_eq_some h3
    have hdn_clean := hclean' dn hdn_mem
    have hp_clean := hclean' p hp_mem
    have hplast : p.path.data.getLast? ≠ some ':' := cpOf_not_endsColon h6 hp_clean
    refine ⟨dn, ppk, p, h1, h2, h3, ?_⟩
    show pyCount dn.path DELIMETER = pyCount p.path DELIMETER + 1
    rw [pyCount_delim, pyCount_delim, h4]
    have hdata : (p.path ++ DELIMETER ++ dn.slug).data =
        p.path.data ++ ':' :: ':' :: dn.slug.data := by
      simp [String.data_append, DELIMETER_data]
    rw [hdata, countOcc_sep_append p.path.data hplast dn.slug.data]
    have hzero : countOcc ':' [':'] dn.slug.data = 0 :=
      countOcc_none (not_containsDelim_splitFirst hdn_clean.1)
    omega

/-- Rows whose slugs contain no `'::'` but carry stray `':'` characters:
parent `a:` with child `:b`. -/
def cPc : Node :=
  { pk := 1, name := "P", slug := "a:", sites := [1], parent := none, path := "a:",
    order := 0 }

def cNc : Node :=
  { pk := 2, name := "N", slug := ":b", sites := [1], parent := some 1, path := "a::::b",
    order := 0 }

/-- Counterexample to C9 as stated: the slugs `"a:"` and `":b"` are
non-empty and contain no `"::"`, the chain holds exactly one ancestor,
yet the computed path `"a::::b"` counts the delimiter twice — depth 2
for one ancestor. -/
theorem depth_counts_ancestors_cex :
    walkB [cPc, cNc] (some 1) [cPc] = true ∧ cPc.parent = none ∧
      containsDelim "a:" = false ∧ containsDelim ":b" = false ∧
      ¬("a:" = "") ∧ ¬(":b" = "") ∧
      computePath [cPc, cNc] ([cPc, cNc].length + 1) [2] ":b" (some 1) =
        Except.ok "a::::b" ∧
      pyCount "a::::b" DELIMETER = 2 ∧ ¬((2 : Nat) = 1) := by decide

/-- Witness for C9 (amended), on the concrete store: saving root `a` (an
empty ancestor chain: computed path `a`, depth 0) cascades so that the
grandchild row `d` ends with depth exceeding its parent's by one. -/
theorem depth_counts_ancestors_witness :
    computePath cStore (cStore.length + 1) [1] "a" none = Except.ok "a" ∧
      pyCount "a" DELIMETER = 0 ∧
      (∃ dn ppk p, getNode cStore 4 = some dn ∧ dn.parent = some ppk ∧
        getNode cStore ppk = some p ∧ Node.depth dn = Node.depth p + 1) := by
  have h := depth_counts_ancestors cStore cA []
    (by decide) (by exact rfl) (by decide) (by decide) (by decide) (by decide)
  refine ⟨by simpa [cA] using h.1.1, by simpa using h.1.2.1, ?_⟩
  apply h.2 10 cStore (by decide) (by decide) 4
  exact Desc.step cD 2 (Desc.child cB (by decide) (by decide)) (by decide) (by decide)

/-! ### build_tree_structure (`DAGCategoryManager.build_tree_structure`) -/

/-- Prop form of the `order_by('path')` comparison, for the sort performed
by `build_tree_structure`. -/
def pathLeP (a b : Node) : Prop := pathLe a b = true

instance : DecidableRel pathLeP := fun a b =>
  inferInstanceAs (Decidable (pathLe a b = true))

instance : IsTrans Node pathLeP :=
  ⟨fun _ _ _ h1 h2 => pathLe_trans h1 h2⟩

instance : IsTotal Node pathLeP :=
  ⟨fun a b => pathLe_total a b⟩

/-- The in-memory state of one `build_tree_structure` pass over the
path-sorted node list `arr`, all per-node data indexed by position in
`arr`: `parentIdx i` is the `node.parent` assignment the pass has made for
the node at index `i` (`none` while still unassigned), `childIdx i` its
prefetched `children_list`, `ret` the accumulated root list and `previous`
the cursor left by the preceding iteration. -/
structure BuildState where
  parentIdx : List (Option Nat)
  childIdx : List (List Nat)
  ret : List Nat
  previous : Option Nat
deriving Repr, DecidableEq

/-- The `while previous.depth > node.depth: previous = previous.parent`
wind-back loop.  It follows the in-pass parent assignments; those always
point to strictly earlier indices, so fuel equal to the start index
suffices.  Exhausted fuel, a missing row, or an unassigned parent link
(where Python would dereference a stale database object) give `none`. -/
def windBack (arr : List Node) (pidx : List (Option Nat)) (d fuel i : Nat) :
    Option Nat :=
  match arr.get? i with
  | none => none
  | some node =>
    if node.depth ≤ d then some i
    else
      match pidx.get? i with
      | some (some j) =>
        match fuel with
        | 0 => none
        | fuel + 1 => windBack arr pidx d fuel j
      | _ => none

/-- One iteration of the `for node in qs` loop of `build_tree_structure`,
processing the node at index `i` of the path-sorted list.  `none` marks
the executions in which Python would dereference `None` (first node of
nonzero depth) or a stale database object (an unassigned in-memory parent
link). -/
def buildStep (arr : List Node) (st : BuildState) (i : Nat) :
    Option BuildState :=
  match arr.get? i with
  | none => none
  | some node =>
    if node.depth ≠ 0 then
      match st.previous with
      | none => none
      | some pv =>
        match windBack arr st.parentIdx node.depth pv pv with
        | none => none
        | some pj =>
          match arr.get? pj with
          | none => none
          | some pnode =>
            match (if pnode.depth = node.depth then (st.parentIdx.get? pj).join
                   else some pj) with
            | none => none
            | some par =>
              match st.childIdx.get? par with
              | none => none
              | some lst =>
                some { parentIdx := st.parentIdx.set i (some par),
                       childIdx := st.childIdx.set par (lst ++ [i]),
                       ret := st.ret,
                       previous := some i }
    else
      some { st with ret := st.ret ++ [i], previous := some i }

/-- `DAGCategoryManager.build_tree_structure`: sort the supplied queryset
by `path` (the `qs.order_by('path')`, which discards any caller-supplied
order), then run the linear pass.  The result pairs the sorted node list
with the final in-memory state: root indices in `ret`, and per-index
parent assignment and `children_list`. -/
def build_tree_structure (qs : List Node) : Option (List Node × BuildState) :=
  let arr := qs.insertionSort pathLeP
  (((List.range arr.length).foldlM (buildStep arr)
      ⟨List.replicate arr.length none, List.replicate arr.length [], [], none⟩).map
    (fun st => (arr, st)))

/-- C10: `build_tree_structure` begins with `qs.order_by('path')` —
"Ignores any order you gave the queryset!" — so on any two permutations of
a node collection with pairwise distinct paths (path uniqueness is the
model's standing invariant: the column is `unique=True`) it produces the
identical result: same sorted node list, same root list, same per-node
parent assignment and children lists. -/
theorem build_tree_structure_perm (xs ys : List Node) (hperm : xs.Perm ys)
    (hnodup : (xs.map Node.path).Nodup) :
    build_tree_structure xs = build_tree_structure ys := by
  have hsort : xs.insertionSort pathLeP = ys.insertionSort pathLeP := by
    apply eq_of_perm_of_pairwise
      ((List.perm_insertionSort pathLeP xs).trans
        (hperm.trans (List.perm_insertionSort pathLeP ys).symm))
      (List.sorted_insertionSort pathLeP xs)
      (List.sorted_insertionSort pathLeP ys)
    intro a ha b hb h1 h2
    exact List.inj_on_of_nodup_map hnodup
      ((List.perm_insertionSort pathLeP xs).mem_iff.mp ha)
      ((List.perm_insertionSort pathLeP xs).mem_iff.mp hb)
      (pathLe_antisymm_path h1 h2)
  rw [build_tree_structure, build_tree_structure, hsort]

/-- Witness for C10 at a concrete input: the two orders of the two-row
store `{a, a::b}` build the same tree. -/
theorem build_tree_structure_perm_witness :
    build_tree_structure [cB, cA] = build_tree_structure [cA, cB] :=
  build_tree_structure_perm [cB, cA] [cA, cB] (List.Perm.swap cA cB [])
    (by decide)

/-- Root row with path `a`, for the C4 counterexample. -/
def cHa : Node :=
  { pk := 21, name := "a", slug := "a", sites := [1], parent := none,
    path := "a", order := 0 }

/-- Root row with path `a-b`: `'-'` sorts before `':'`. -/
def cHab : Node :=
  { pk := 22, name := "a-b", slug := "a-b", sites := [1], parent := none,
    path := "a-b", order := 0 }

/-- Child row of `a` with path `a::b`. -/
def cHc : Node :=
  { pk := 23, name := "b", slug := "b", sites := [1], parent := some 21,
    path := "a::b", order := 0 }

/-- Counterexample to C4 as stated: the store `{a, a-b, a::b}` is a
consistent forest (two roots of depth 0 and one depth-1 node whose
ancestor `a` — its immediate path prefix — is present), yet because
`'-' < ':'` the path sort puts `a-b` between `a` and `a::b`, and the
single-`previous` pass attaches `a::b` to the children list of the
*unrelated root* `a-b` (index 1), not to that of its immediate path
prefix `a` (index 0). -/
theorem build_tree_structure_cex :
    Node.depth cHa = 0 ∧ Node.depth cHab = 0 ∧ Node.depth cHc = 1 ∧
      cHc.path = cHa.path ++ DELIMETER ++ cHc.slug ∧
      ¬(cHc.path = cHab.path ++ DELIMETER ++ cHc.slug) ∧
      build_tree_structure [cHa, cHab, cHc] =
        some ([cHa, cHab, cHc],
          { parentIdx := [none, none, some 1], childIdx := [[], [2], []],
            ret := [0, 1], previous := some 2 }) ∧
      ¬((some 1 : Option Nat) = some 0) := by decide

/-- In-memory tree of nodes: the shape `build_tree_structure` is supposed
to reconstruct from the path column. -/
inductive PTree where
  | mk (n : Node) (children : List PTree)

/-- Number of nodes in a forest. -/
def PForest.size : List PTree → Nat
  | [] => 0
  | .mk _ cs :: ts => 1 + PForest.size cs + PForest.size ts

/-- Preorder (root, then subtrees, then later trees) listing of a forest's
nodes — exactly the path-sorted visiting order of the pass. -/
def PForest.flatten : List PTree → List Node
  | [] => []
  | .mk n cs :: ts => n :: (PForest.flatten cs ++ PForest.flatten ts)

/-- Preorder indices of the roots of a forest whose first node sits at
index `k`. -/
def rootIdxs (k : Nat) : List PTree → List Nat
  | [] => []
  | .mk _ cs :: ts => k :: rootIdxs (k + 1 + PForest.size cs) ts

/-- Expected final parent assignment (in preorder) for a forest starting
at index `k` whose roots' parent is `po`: roots keep `po`, every other
node points at its tree parent's index. -/
def PForest.specPidx (k : Nat) (po : Option Nat) : List PTree → List (Option Nat)
  | [] => []
  | .mk _ cs :: ts =>
    po :: (PForest.specPidx (k + 1) (some k) cs ++
      PForest.specPidx (k + 1 + PForest.size cs) po ts)

/-- Expected final children lists (in preorder) for a forest starting at
index `k`: each node's list holds the preorder indices of its tree
children, in order. -/
def PForest.specCidx (k : Nat) : List PTree → List (List Nat)
  | [] => []
  | .mk _ cs :: ts =>
    rootIdxs (k + 1) cs :: (PForest.specCidx (k + 1) cs ++
      PForest.specCidx (k + 1 + PForest.size cs) ts)

/-- The rightmost spine of a forest starting at index `k` at depth `d`, as
(index, depth) pairs deepest-first: the in-memory parent chain left
standing from the forest's last preorder node after the pass. -/
def spineAux : Nat → Nat → List PTree → List (Nat × Nat)
  | _, _, [] => []
  | k, d, [.mk _ cs] => spineAux (k + 1) (d + 1) cs ++ [(k, d)]
  | k, d, .mk _ cs :: ts => spineAux (k + 1 + PForest.size cs) d ts

/-- A consistent forest over the path column: each node's recorded depth
is its actual tree depth, roots occur at depth 0, and every non-root
node's path extends its tree parent's path by the delimiter and a suffix
(the parent is the node's immediate path prefix). -/
inductive PForest.WF : Nat → Option String → List PTree → Prop
  | nil (d : Nat) (pp : Option String) : PForest.WF d pp []
  | cons (d : Nat) (pp : Option String) (n : Node) (cs ts : List PTree)
      (hd : Node.depth n = d)
      (hroot : pp = none → d = 0)
      (hedge : ∀ q, pp = some q → ∃ sl, n.path = q ++ DELIMETER ++ sl)
      (hcs : PForest.WF (d + 1) (some n.path) cs)
      (hts : PForest.WF d pp ts) :
      PForest.WF d pp (.mk n cs :: ts)

/-- One node contributes at least one preorder slot. -/
theorem PForest_size_cons (n : Node) (cs ts : List PTree) :
    PForest.size (.mk n cs :: ts) =
      1 + PForest.size cs + PForest.size ts := by
  simp [PForest.size]

/-- The preorder listing has exactly `size` entries. -/
theorem PForest_flatten_length :
    ∀ (N : Nat) (fs : List PTree), PForest.size fs ≤ N →
      (PForest.flatten fs).length = PForest.size fs := by
  intro N
  induction N with
  | zero =>
    intro fs h
    cases fs with
    | nil => simp [PForest.flatten, PForest.size]
    | cons t ts =>
      cases t with
      | mk n cs => rw [PForest_size_cons] at h; omega
  | succ N ih =>
    intro fs h
    cases fs with
    | nil => simp [PForest.flatten, PForest.size]
    | cons t ts =>
      cases t with
      | mk n cs =>
        rw [PForest_size_cons] at h
        have h1 := ih cs (by omega)
        have h2 := ih ts (by omega)
        simp [PForest.flatten, PForest_size_cons, h1, h2]
        omega

/-- The expected parent-assignment listing has exactly `size` entries. -/
theorem PForest_specPidx_length :
    ∀ (N : Nat) (fs : List PTree) (k : Nat) (po : Option Nat),
      PForest.size fs ≤ N →
      (PForest.specPidx k po fs).length = PForest.size fs := by
  intro N
  induction N with
  | zero =>
    intro fs k po h
    cases fs with
    | nil => simp [PForest.specPidx, PForest.size]
    | cons t ts =>
      cases t with
      | mk n cs => rw [PForest_size_cons] at h; omega
  | succ N ih =>
    intro fs k po h
    cases fs with
    | nil => simp [PForest.specPidx, PForest.size]
    | cons t ts =>
      cases t with
      | mk n cs =>
        rw [PForest_size_cons] at h
        have h1 := ih cs (k + 1) (some k) (by omega)
        have h2 := ih ts (k + 1 + PForest.size cs) po (by omega)
        simp [PForest.specPidx, PForest_size_cons, h1, h2]
        omega

/-- The expected children-list listing has exactly `size` entries. -/
theorem PForest_specCidx_length :
    ∀ (N : Nat) (fs : List PTree) (k : Nat),
      PForest.size fs ≤ N →
      (PForest.specCidx k fs).length = PForest.size fs := by
  intro N
  induction N with
  | zero =>
    intro fs k h
    cases fs with
    | nil => simp [PForest.specCidx, PForest.size]
    | cons t ts =>
      cases t with
      | mk n cs => rw [PForest_size_cons] at h; omega
  | succ N ih =>
    intro fs k h
    cases fs with
    | nil => simp [PForest.specCidx, PForest.size]
    | cons t ts =>
      cases t with
      | mk n cs =>
        rw [PForest_size_cons] at h
        have h1 := ih cs (k + 1) (by omega)
        have h2 := ih ts (k + 1 + PForest.size cs) (by omega)
        simp [PForest.specCidx, PForest_size_cons, h1, h2]
        omega

/-- Spine entries of a forest at depth `d` carry depths `≥ d`. -/
theorem spineAux_depth :
    ∀ (N : Nat) (fs : List PTree) (k d : Nat), PForest.size fs ≤ N →
      ∀ p ∈ spineAux k d fs, d ≤ p.2 := by
  intro N
  induction N with
  | zero =>
    intro fs k d h p hp
    cases fs with
    | nil => simp [spineAux] at hp
    | cons t ts =>
      cases t with
      | mk n cs => rw [PForest_size_cons] at h; omega
  | succ N ih =>
    intro fs k d h p hp
    cases fs with
    | nil => simp [spineAux] at hp
    | cons t ts =>
      cases t with
      | mk n cs =>
        rw [PForest_size_cons] at h
        cases ts with
        | nil =>
          simp only [spineAux] at hp
          rcases List.mem_append.mp hp with hp | hp
          · have := ih cs (k + 1) (d + 1) (by simp [PForest.size] at h; omega) p hp
            omega
          · simp only [List.mem_singleton] at hp
            rw [hp]
        | cons t' ts' =>
          simp only [spineAux] at hp
          exact ih (t' :: ts') (k + 1 + PForest.size cs) d
            (by
              cases t' with
              | mk n' cs' =>
                rw [PForest_size_cons] at h ⊢
                omega) p hp

/-- First (index, depth) entry of a parent-chain listing whose depth is at
most `e`: where a wind-back to target depth `e` stops. -/
def firstLe (e : Nat) : List (Nat × Nat) → Option (Nat × Nat)
  | [] => none
  | (i, d) :: L => if d ≤ e then some (i, d) else firstLe e L

/-- `Stack arr pidx i L`: from index `i` the in-pass parent assignments
recorded in `pidx` walk through exactly the (index, depth) pairs of `L`
(depths read off `arr`), indices and depths strictly decreasing, ending at
a node whose assignment is still unset. -/
inductive Stack (arr : List Node) (pidx : List (Option Nat)) :
    Nat → List (Nat × Nat) → Prop
  | root (i : Nat) (node : Node) (hn : arr.get? i = some node)
      (hp : pidx.get? i = some none) : Stack arr pidx i [(i, node.depth)]
  | step (i j : Nat) (node : Node) (L : List (Nat × Nat))
      (hn : arr.get? i = some node)
      (hp : pidx.get? i = some (some j))
      (hlt : ∀ p ∈ L, p.1 < i ∧ p.2 < node.depth)
      (hs : Stack arr pidx j L) : Stack arr pidx i ((i, node.depth) :: L)

/-- A stack starts with its own index and that row's depth. -/
theorem Stack_head {arr : List Node} {pidx : List (Option Nat)} {i : Nat}
    {L : List (Nat × Nat)} (h : Stack arr pidx i L) :
    ∃ node L', arr.get? i = some node ∧ L = (i, node.depth) :: L' := by
  cases h with
  | root i node hn hp => exact ⟨node, [], hn, rfl⟩
  | step i j node L hn hp hlt hs => exact ⟨node, L, hn, rfl⟩

/-- Stack entries name indices at most the stack's top. -/
theorem Stack_le {arr : List Node} {pidx : List (Option Nat)} :
    ∀ {i : Nat} {L : List (Nat × Nat)}, Stack arr pidx i L →
      ∀ p ∈ L, p.1 ≤ i := by
  intro i L h
  induction h with
  | root i node hn hp =>
    intro p hp'
    rw [List.mem_singleton] at hp'
    rw [hp']
  | step i j node L hn hp hlt hs ih =>
    intro p hp'
    rcases List.mem_cons.mp hp' with h' | h'
    · rw [h']
    · exact Nat.le_of_lt (hlt p h').1

/-- Every stack entry records the depth of the row at its index. -/
theorem Stack_arr {arr : List Node} {pidx : List (Option Nat)} :
    ∀ {i : Nat} {L : List (Nat × Nat)}, Stack arr pidx i L →
      ∀ p ∈ L, ∃ nd, arr.get? p.1 = some nd ∧ nd.depth = p.2 := by
  intro i L h
  induction h with
  | root i node hn hp =>
    intro p hp'
    rw [List.mem_singleton] at hp'
    rw [hp']
    exact ⟨node, hn, rfl⟩
  | step i j node L hn hp hlt hs ih =>
    intro p hp'
    rcases List.mem_cons.mp hp' with h' | h'
    · rw [h']
      exact ⟨node, hn, rfl⟩
    · exact ih p h'

/-- A stack survives any assignment update made strictly above its top. -/
theorem Stack_stable {arr : List Node} {pidx pidx' : List (Option Nat)} :
    ∀ {i : Nat} {L : List (Nat × Nat)}, Stack arr pidx i L →
      (∀ j, j ≤ i → pidx'.get? j = pidx.get? j) →
      Stack arr pidx' i L := by
  intro i L h
  induction h with
  | root i node hn hp =>
    intro hag
    exact Stack.root i node hn ((hag i (Nat.le_refl i)).trans hp)
  | step i j node L hn hp hlt hs ih =>
    intro hag
    obtain ⟨nd', L'', hn'', hL⟩ := Stack_head hs
    have hji : j < i := (hlt (j, nd'.depth) (by rw [hL]; exact List.mem_cons_self _ _)).1
    exact Stack.step i j node L hn ((hag i (Nat.le_refl i)).trans hp) hlt
      (ih (fun j' hj' => hag j' (Nat.le_trans hj' (Nat.le_of_lt hji))))

/-- Wind-back stops immediately at a row of depth at most the target. -/
theorem windBack_stop {arr : List Node} {pidx : List (Option Nat)}
    {d fuel i : Nat} {node : Node} (hn : arr.get? i = some node)
    (hd : node.depth ≤ d) : windBack arr pidx d fuel i = some i := by
  rw [windBack, hn]
  simp [hd]

/-- Wind-back at a row deeper than the target follows the assignment. -/
theorem windBack_step {arr : List Node} {pidx : List (Option Nat)}
    {d fuel i j : Nat} {node : Node} (hn : arr.get? i = some node)
    (hd : ¬ node.depth ≤ d) (hp : pidx.get? i = some (some j)) :
    windBack arr pidx d (fuel + 1) i = windBack arr pidx d fuel j := by
  rw [windBack, hn]
  simp [hd, ← List.get?_eq_getElem?, hp]

theorem firstLe_cons_le {e i d : Nat} {L : List (Nat × Nat)} (h : d ≤ e) :
    firstLe e ((i, d) :: L) = some (i, d) := by
  simp [firstLe, h]

theorem firstLe_cons_gt {e i d : Nat} {L : List (Nat × Nat)} (h : ¬ d ≤ e) :
    firstLe e ((i, d) :: L) = firstLe e L := by
  simp [firstLe, h]

/-- Entries too deep for the target are skipped wholesale. -/
theorem firstLe_append_gt {e : Nat} :
    ∀ {L₁ L₂ : List (Nat × Nat)}, (∀ p ∈ L₁, ¬ p.2 ≤ e) →
      firstLe e (L₁ ++ L₂) = firstLe e L₂ := by
  intro L₁
  induction L₁ with
  | nil => intro L₂ h; rfl
  | cons p L ih =>
    intro L₂ h
    cases p with
    | mk i d =>
      rw [List.cons_append, firstLe_cons_gt (h (i, d) (List.mem_cons_self _ _))]
      exact ih (fun q hq => h q (List.mem_cons_of_mem _ hq))

/-- Decompose a successful `firstLe` scan: too-deep prefix, then the hit. -/
theorem firstLe_split {e : Nat} :
    ∀ {L : List (Nat × Nat)} {x dx : Nat}, firstLe e L = some (x, dx) →
      ∃ L₁ L₂, L = L₁ ++ (x, dx) :: L₂ ∧ dx ≤ e ∧ ∀ p ∈ L₁, ¬ p.2 ≤ e := by
  intro L
  induction L with
  | nil => intro x dx h; simp [firstLe] at h
  | cons p L ih =>
    intro x dx h
    cases p with
    | mk i d =>
      by_cases hle : d ≤ e
      · rw [firstLe_cons_le hle] at h
        simp only [Option.some.injEq, Prod.mk.injEq] at h
        obtain ⟨rfl, rfl⟩ := h
        exact ⟨[], L, rfl, hle, by simp⟩
      · rw [firstLe_cons_gt hle] at h
        obtain ⟨L₁, L₂, rfl, h1, h2⟩ := ih h
        refine ⟨(i, d) :: L₁, L₂, rfl, h1, ?_⟩
        intro q hq
        rcases List.mem_cons.mp hq with hq | hq
        · rw [hq]; exact hle
        · exact h2 q hq

/-- The wind-back loop from a chain's top stops exactly at the first chain
entry whose depth is at most the target. -/
theorem windBack_stack {arr : List Node} {pidx : List (Option Nat)} :
    ∀ {i : Nat} {L : List (Nat × Nat)}, Stack arr pidx i L →
      ∀ {e x dx fuel : Nat}, firstLe e L = some (x, dx) → i ≤ fuel →
        windBack arr pidx e fuel i = some x := by
  intro i L h
  induction h with
  | root i node hn hp =>
    intro e x dx fuel hf hfuel
    by_cases hle : node.depth ≤ e
    · rw [firstLe_cons_le hle] at hf
      simp only [Option.some.injEq, Prod.mk.injEq] at hf
      obtain ⟨rfl, rfl⟩ := hf
      exact windBack_stop hn hle
    · rw [firstLe_cons_gt hle] at hf
      simp [firstLe] at hf
  | step i j node L hn hp hlt hs ih =>
    intro e x dx fuel hf hfuel
    by_cases hle : node.depth ≤ e
    · rw [firstLe_cons_le hle] at hf
      simp only [Option.some.injEq, Prod.mk.injEq] at hf
      obtain ⟨rfl, rfl⟩ := hf
      exact windBack_stop hn hle
    · rw [firstLe_cons_gt hle] at hf
      obtain ⟨nd', L'', hn'', hL⟩ := Stack_head hs
      have hji : j < i :=
        (hlt (j, nd'.depth) (by rw [hL]; exact List.mem_cons_self _ _)).1
      cases fuel with
      | zero => omega
      | succ fuel =>
        rw [windBack_step hn hle hp]
        exact ih hf (by omega)

/-- Any entry of a stack listing starts a stack of its own. -/
theorem Stack_suffix {arr : List Node} {pidx : List (Option Nat)} :
    ∀ {i : Nat} {L : List (Nat × Nat)}, Stack arr pidx i L →
      ∀ {L₁ : List (Nat × Nat)} {x dx : Nat} {L₂ : List (Nat × Nat)},
        L = L₁ ++ (x, dx) :: L₂ → Stack arr pidx x ((x, dx) :: L₂) := by
  intro i L h
  induction h with
  | root i node hn hp =>
    intro L₁ x dx L₂ hL
    cases L₁ with
    | nil =>
      rw [List.nil_append] at hL
      injection hL with h1 h2
      injection h1 with hx hd
      subst hx
      subst hd
      rw [← h2]
      exact Stack.root i node hn hp
    | cons q L₁' =>
      rw [List.cons_append] at hL
      injection hL with h1 h2
      exact absurd h2.symm (by simp)
  | step i j node L hn hp hlt hs ih =>
    intro L₁ x dx L₂ hL
    cases L₁ with
    | nil =>
      rw [List.nil_append] at hL
      injection hL with h1 h2
      injection h1 with hx hd
      subst hx
      subst hd
      rw [← h2]
      exact Stack.step i j node L hn hp hlt hs
    | cons q L₁' =>
      rw [List.cons_append] at hL
      injection hL with h1 h2
      exact ih h2

/-- `l.set` at the index read back. -/
theorem get?_set_self {α : Type} {l : List α} {i : Nat} {a b : α}
    (h : l.get? i = some b) : (l.set i a).get? i = some a := by
  rw [List.get?_eq_getElem?] at h
  rw [List.get?_set]
  simp [h]

/-- `l.set` leaves other indices alone. -/
theorem get?_set_ne {α : Type} (l : List α) (i j : Nat) (a : α) (h : i ≠ j) :
    (l.set i a).get? j = l.get? j := by
  rw [List.get?_set]
  simp [h]

/-- In-bounds lookups succeed. -/
theorem get?_lt_isSome {α : Type} {l : List α} {i : Nat} (h : i < l.length) :
    ∃ a, l.get? i = some a := by
  cases hh : l.get? i with
  | none => rw [List.get?_eq_none] at hh; omega
  | some a => exact ⟨a, rfl⟩

/-- Entry precondition for running the `build_tree_structure` pass over
the preorder index range `[k, k + size fs)` of a sub-forest `fs` of depth
`d` whose roots' parent is at index `po`: the array segment carries the
forest's preorder listing, the segment's state entries are untouched, and
the `previous` cursor's in-memory parent chain winds back to `po` at
target depth `d` (either directly, or through a completed sibling subtree
whose root's assignment is `po`). -/
def BuildPre (arr : List Node) (d : Nat) (po : Option Nat)
    (M : List (Nat × Nat)) (k : Nat) (st : BuildState)
    (fs : List PTree) : Prop :=
  (∀ off, off < PForest.size fs →
    arr.get? (k + off) = (PForest.flatten fs).get? off) ∧
  k + PForest.size fs ≤ arr.length ∧
  st.parentIdx.length = arr.length ∧
  st.childIdx.length = arr.length ∧
  (∀ i, k ≤ i → i < arr.length →
    st.parentIdx.get? i = some none ∧ st.childIdx.get? i = some []) ∧
  (match po with
   | none => d = 0 ∧ M = []
   | some pi =>
       d ≠ 0 ∧ pi < k ∧ Stack arr st.parentIdx pi M ∧ (∀ p ∈ M, p.2 < d) ∧
       ∃ pv L₁, st.previous = some pv ∧ pv < k ∧
         Stack arr st.parentIdx pv (L₁ ++ M) ∧
         (L₁ = [] ∨ ∃ L₂ x, L₁ = L₂ ++ [(x, d)] ∧ (∀ p ∈ L₂, d < p.2) ∧
           st.parentIdx.get? x = some (some pi)))

/-- What running the pass over a sub-forest's index range does to the
state: it succeeds, writes the forest's expected parent assignments and
children lists into the segment, appends the segment's root indices to the
parent's children list (or, for `po = none`, to `ret`), leaves everything
else alone, and leaves `previous` on the segment's last index with the
forest's rightmost spine as its in-memory chain. -/
def BuildSpec (arr : List Node) (d : Nat) (po : Option Nat)
    (M : List (Nat × Nat)) (k : Nat) (st st' : BuildState)
    (fs : List PTree) : Prop :=
  List.foldlM (buildStep arr) st (List.range' k (PForest.size fs)) =
    some st' ∧
  st'.parentIdx.length = st.parentIdx.length ∧
  st'.childIdx.length = st.childIdx.length ∧
  (∀ i, ¬(k ≤ i ∧ i < k + PForest.size fs) →
    st'.parentIdx.get? i = st.parentIdx.get? i) ∧
  (∀ off, off < PForest.size fs →
    st'.parentIdx.get? (k + off) = (PForest.specPidx k po fs).get? off) ∧
  (∀ i, ¬(k ≤ i ∧ i < k + PForest.size fs) → po ≠ some i →
    st'.childIdx.get? i = st.childIdx.get? i) ∧
  (∀ pi, po = some pi →
    st'.childIdx.get? pi =
      (st.childIdx.get? pi).map (fun l => l ++ rootIdxs k fs)) ∧
  (∀ off, off < PForest.size fs →
    st'.childIdx.get? (k + off) = (PForest.specCidx k fs).get? off) ∧
  st'.ret = st.ret ++ (match po with | none => rootIdxs k fs | some _ => []) ∧
  (fs = [] → st' = st) ∧
  (fs ≠ [] →
    st'.previous = some (k + PForest.size fs - 1) ∧
    Stack arr st'.parentIdx (k + PForest.size fs - 1) (spineAux k d fs ++ M))

/-- The empty forest changes nothing. -/
theorem BuildSpec_nil (arr : List Node) (d : Nat) (po : Option Nat)
    (M : List (Nat × Nat)) (k : Nat) (st : BuildState) :
    BuildSpec arr d po M k st st [] := by
  refine ⟨?_, rfl, rfl, fun i _ => rfl, ?_, fun i _ _ => rfl, ?_, ?_, ?_,
    fun _ => rfl, fun h => absurd rfl h⟩
  · show List.foldlM (buildStep arr) st (List.range' k (PForest.size [])) =
      some st
    simp [PForest.size]
  · intro off hoff
    simp [PForest.size] at hoff
  · intro pi hpi
    cases h : st.childIdx.get? pi <;> simp [rootIdxs]
  · intro off hoff
    simp [PForest.size] at hoff
  · cases po <;> simp [rootIdxs]

/-- The loop body on a depth-0 node: append it to `ret`. -/
theorem buildStep_root {arr : List Node} {st : BuildState} {k : Nat}
    {node : Node} (hn : arr.get? k = some node) (hd0 : node.depth = 0) :
    buildStep arr st k =
      some { st with ret := st.ret ++ [k], previous := some k } := by
  rw [buildStep, hn]
  simp [hd0]

/-- The loop body on a deeper node stopping the wind-back on a strictly
shallower row (the `else: node.parent = previous` child case): attach to
that row. -/
theorem buildStep_child {arr : List Node} {st : BuildState} {k pv pj : Nat}
    {node pnode : Node} {lst : List Nat}
    (hn : arr.get? k = some node) (hd : node.depth ≠ 0)
    (hprev : st.previous = some pv)
    (hwb : windBack arr st.parentIdx node.depth pv pv = some pj)
    (hpn : arr.get? pj = some pnode)
    (hne : ¬ pnode.depth = node.depth)
    (hlst : st.childIdx.get? pj = some lst) :
    buildStep arr st k =
      some { parentIdx := st.parentIdx.set k (some pj),
             childIdx := st.childIdx.set pj (lst ++ [k]),
             ret := st.ret, previous := some k } := by
  rw [buildStep, hn]
  rw [List.get?_eq_getElem?] at hpn hlst
  simp [hd, hprev, hwb, hpn, hne, hlst]

/-- The loop body on a deeper node stopping the wind-back on an equal-depth
row (the `if previous.depth == node.depth: node.parent = previous.parent`
sibling case): attach to that row's recorded parent. -/
theorem buildStep_sib {arr : List Node} {st : BuildState} {k pv pj par : Nat}
    {node pnode : Node} {lst : List Nat}
    (hn : arr.get? k = some node) (hd : node.depth ≠ 0)
    (hprev : st.previous = some pv)
    (hwb : windBack arr st.parentIdx node.depth pv pv = some pj)
    (hpn : arr.get? pj = some pnode)
    (heq : pnode.depth = node.depth)
    (hjoin : st.parentIdx.get? pj = some (some par))
    (hlst : st.childIdx.get? par = some lst) :
    buildStep arr st k =
      some { parentIdx := st.parentIdx.set k (some par),
             childIdx := st.childIdx.set par (lst ++ [k]),
             ret := st.ret, previous := some k } := by
  rw [buildStep, hn]
  rw [List.get?_eq_getElem?] at hpn hjoin hlst
  simp [hd, hprev, hwb, hpn, heq, hjoin, hlst]

/-- Backbone of the `build_tree_structure` verification: running the pass
over the preorder index range of a well-formed sub-forest satisfying the
entry precondition realizes exactly the forest-prescribed state change. -/
theorem build_master :
    ∀ (N : Nat) (fs : List PTree), PForest.size fs ≤ N →
      ∀ (arr : List Node) (d : Nat) (pp : Option String) (po : Option Nat)
        (M : List (Nat × Nat)) (k : Nat) (st : BuildState),
        PForest.WF d pp fs → BuildPre arr d po M k st fs →
        ∃ st', BuildSpec arr d po M k st st' fs := by
  intro N
  induction N with
  | zero =>
    intro fs hN arr d pp po M k st hwf hpre
    cases fs with
    | nil => exact ⟨st, BuildSpec_nil arr d po M k st⟩
    | cons t ts =>
      cases t with
      | mk n cs =>
        rw [PForest_size_cons] at hN
        omega
  | succ N ih =>
    intro fs hN arr d pp po M k st hwf hpre
    cases fs with
    | nil => exact ⟨st, BuildSpec_nil arr d po M k st⟩
    | cons t ts =>
      cases t with
      | mk n cs =>
        obtain ⟨harr, hk, hlp, hlc, hunt, hM⟩ := hpre
        cases hwf with
        | cons _ _ _ _ _ hd hroot hedge hcs hts =>
          rw [PForest_size_cons] at hN harr hk
          have han : arr.get? k = some n := by
            have h0 := harr 0 (by omega)
            simpa [PForest.flatten] using h0
          have hklen : k < arr.length := by omega
          have hMd : ∀ p ∈ M, p.2 < d := by
            cases po with
            | none =>
              obtain ⟨hd0, hM0⟩ := hM
              rw [hM0]
              intro p hp'
              simp at hp'
            | some pi => exact hM.2.2.2.1
          have hpok : ∀ pi, po = some pi → pi < k := by
            cases po with
            | none => intro pi hcon; simp at hcon
            | some pi' =>
              intro pi hcon
              injection hcon with h'
              rw [← h']
              exact hM.2.1
          have hponek : po ≠ some k := by
            cases po with
            | none => simp
            | some pi' =>
              intro hcon
              injection hcon with h'
              have := hM.2.1
              omega
          suffices haux : ∀ st₁ : BuildState,
              buildStep arr st k = some st₁ →
              st₁.parentIdx.length = arr.length →
              st₁.childIdx.length = arr.length →
              (∀ i, i ≠ k → st₁.parentIdx.get? i = st.parentIdx.get? i) →
              st₁.parentIdx.get? k = some po →
              (∀ i, po ≠ some i → st₁.childIdx.get? i = st.childIdx.get? i) →
              (∀ pi, po = some pi →
                st₁.childIdx.get? pi =
                  (st.childIdx.get? pi).map (fun l => l ++ [k])) →
              st₁.ret = st.ret ++
                (match po with | none => [k] | some _ => []) →
              st₁.previous = some k →
              Stack arr st₁.parentIdx k ((k, d) :: M) →
              ∃ st', BuildSpec arr d po M k st st' (.mk n cs :: ts) by
            cases po with
            | none =>
              obtain ⟨hd0, hM0⟩ := hM
              have hstep : buildStep arr st k =
                  some { st with ret := st.ret ++ [k], previous := some k } :=
                buildStep_root han (by rw [hd, hd0])
              refine haux _ hstep hlp hlc (fun i _ => rfl) ?_
                (fun i _ => rfl) (fun pi hcon => by simp at hcon) rfl rfl ?_
              · exact (hunt k (Nat.le_refl k) hklen).1
              · rw [hM0]
                have := Stack.root k n han (hunt k (Nat.le_refl k) hklen).1
                rw [hd] at this
                exact this
            | some pi =>
              obtain ⟨hdne, hpik, hMstack, hMdepth, pv, L₁, hprev, hpvk,
                hLstack, hLdisj⟩ := hM
              have hdn0 : Node.depth n ≠ 0 := by rw [hd]; exact hdne
              obtain ⟨pnode, M', hpn, hMeq⟩ := Stack_head hMstack
              have hdpi : pnode.depth < d :=
                hMdepth (pi, pnode.depth)
                  (by rw [hMeq]; exact List.mem_cons_self _ _)
              have hpicl : pi < st.childIdx.length := by rw [hlc]; omega
              obtain ⟨lst, hlst⟩ := get?_lt_isSome hpicl
              have hstep : buildStep arr st k =
                  some { parentIdx := st.parentIdx.set k (some pi),
                         childIdx := st.childIdx.set pi (lst ++ [k]),
                         ret := st.ret, previous := some k } := by
                rcases hLdisj with rfl | ⟨L₂, x, rfl, hL₂, hxpi⟩
                · have hfirst : firstLe d ([] ++ M) = some (pi, pnode.depth) := by
                    rw [List.nil_append, hMeq]
                    exact firstLe_cons_le (Nat.le_of_lt hdpi)
                  have hwb : windBack arr st.parentIdx d pv pv = some pi :=
                    windBack_stack hLstack hfirst (Nat.le_refl pv)
                  exact buildStep_child han hdn0 hprev (by rw [hd]; exact hwb)
                    hpn (by rw [hd]; omega) hlst
                · have hfirst : firstLe d ((L₂ ++ [(x, d)]) ++ M) =
                      some (x, d) := by
                    rw [List.append_assoc,
                      firstLe_append_gt (fun p hp => by have := hL₂ p hp; omega),
                      List.singleton_append]
                    exact firstLe_cons_le (Nat.le_refl d)
                  have hwb : windBack arr st.parentIdx d pv pv = some x :=
                    windBack_stack hLstack hfirst (Nat.le_refl pv)
                  obtain ⟨xnd, hxa, hxd⟩ := Stack_arr hLstack (x, d)
                    (by
                      apply List.mem_append_left
                      exact List.mem_append_right _ (List.mem_cons_self _ _))
                  exact buildStep_sib han hdn0 hprev (by rw [hd]; exact hwb)
                    hxa (by rw [hd]; exact hxd) hxpi hlst
              refine haux _ hstep ?_ ?_ ?_ ?_ ?_ ?_ (by simp) rfl ?_
              · show (st.parentIdx.set k (some pi)).length = arr.length
                rw [List.length_set]
                exact hlp
              · show (st.childIdx.set pi (lst ++ [k])).length = arr.length
                rw [List.length_set]
                exact hlc
              · intro i hi
                exact get?_set_ne _ _ _ _ (fun hcon => hi hcon.symm)
              · exact get?_set_self (hunt k (Nat.le_refl k) hklen).1
              · intro i hi
                apply get?_set_ne
                intro hcon
                exact hi (by rw [hcon])
              · intro pi' hpi'
                injection hpi' with h'
                subst h'
                show (st.childIdx.set pi (lst ++ [k])).get? pi =
                  (st.childIdx.get? pi).map (fun l => l ++ [k])
                rw [get?_set_self hlst, hlst]
                rfl
              · have hstk : Stack arr (st.parentIdx.set k (some pi)) k
                    ((k, Node.depth n) :: M) := by
                  apply Stack.step k pi n M han
                    (get?_set_self (hunt k (Nat.le_refl k) hklen).1)
                  · intro p hp'
                    refine ⟨Nat.lt_of_le_of_lt (Stack_le hMstack p hp') hpik, ?_⟩
                    rw [hd]
                    exact hMdepth p hp'
                  · exact Stack_stable hMstack
                      (fun j hj => get?_set_ne _ _ _ _ (by omega))
                rw [hd] at hstk
                exact hstk
          intro st₁ hstep h1lp h1lc h1pout h1pk h1cout h1cpar h1ret h1prev
            h1stack
          have h1unt : ∀ i, k + 1 ≤ i → i < arr.length →
              st₁.parentIdx.get? i = some none ∧
                st₁.childIdx.get? i = some [] := by
            intro i h1 h2
            constructor
            · rw [h1pout i (by omega)]
              exact (hunt i (by omega) h2).1
            · rw [h1cout i ?_]
              · exact (hunt i (by omega) h2).2
              · intro hcon
                have := hpok i hcon
                omega
          have hBpre : BuildPre arr (d + 1) (some k) ((k, d) :: M) (k + 1)
              st₁ cs := by
            refine ⟨?_, by omega, h1lp, h1lc, fun i hi hlen => h1unt i hi hlen,
              by omega, by omega, h1stack, ?_, k, [], h1prev, by omega, ?_,
              Or.inl rfl⟩
            · intro off hoff
              have h := harr (1 + off) (by omega)
              rw [show k + (1 + off) = k + 1 + off from by omega] at h
              rw [h]
              show (PForest.flatten (PTree.mk n cs :: ts)).get? (1 + off) = _
              simp only [PForest.flatten]
              rw [show 1 + off = off + 1 from by omega, List.get?_cons_succ,
                List.get?_append]
              rw [PForest_flatten_length (PForest.size cs) cs (Nat.le_refl _)]
              exact hoff
            · intro p hp'
              rcases List.mem_cons.mp hp' with h' | h'
              · rw [h']; omega
              · have := hMd p h'
                omega
            · rw [List.nil_append]
              exact h1stack
          obtain ⟨st₂, hf2, hlp2, hlc2, hpout2, hpin2, hcout2, hcpar2, hcin2,
            hret2, hnil2, hne2⟩ :=
            ih cs (by omega) arr (d + 1) (some n.path) (some k) ((k, d) :: M)
              (k + 1) st₁ hcs hBpre
          have h2unt : ∀ i, k + 1 + PForest.size cs ≤ i → i < arr.length →
              st₂.parentIdx.get? i = some none ∧
                st₂.childIdx.get? i = some [] := by
            intro i h1 h2
            constructor
            · rw [hpout2 i (by omega)]
              exact (h1unt i (by omega) h2).1
            · rw [hcout2 i (by omega)
                (by intro hcon; injection hcon with h'; omega)]
              exact (h1unt i (by omega) h2).2
          have hCpre : BuildPre arr d po M (k + 1 + PForest.size cs) st₂ ts := by
            refine ⟨?_, by omega, ?_, ?_, h2unt, ?_⟩
            · intro off hoff
              have h := harr (1 + PForest.size cs + off) (by omega)
              rw [show k + (1 + PForest.size cs + off) =
                  k + 1 + PForest.size cs + off from by omega] at h
              rw [h]
              show (PForest.flatten (PTree.mk n cs :: ts)).get?
                  (1 + PForest.size cs + off) = _
              simp only [PForest.flatten]
              rw [show 1 + PForest.size cs + off =
                  (PForest.size cs + off) + 1 from by omega,
                List.get?_cons_succ, List.get?_append_right
                  (by rw [PForest_flatten_length (PForest.size cs) cs
                    (Nat.le_refl _)]; omega)]
              rw [PForest_flatten_length (PForest.size cs) cs (Nat.le_refl _)]
              congr 1
              omega
            · rw [hlp2, h1lp]
            · rw [hlc2, h1lc]
            · cases po with
              | none => exact hM
              | some pi =>
                obtain ⟨hdne, hpik, hMstack, hMdepth, _⟩ := hM
                refine ⟨hdne, by omega, ?_, hMdepth, ?_⟩
                · apply Stack_stable (Stack_stable hMstack
                    (fun j hj => h1pout j (by omega)))
                  intro j hj
                  exact hpout2 j (by omega)
                · by_cases hcs0 : cs = []
                  · subst hcs0
                    have hst21 : st₂ = st₁ := hnil2 rfl
                    refine ⟨k, [(k, d)], ?_, by omega, ?_, ?_⟩
                    · rw [hst21]; exact h1prev
                    · rw [hst21, List.singleton_append]
                      exact h1stack
                    · right
                      exact ⟨[], k, rfl, by simp, by rw [hst21]; exact h1pk⟩
                  · obtain ⟨hprev2, hstack2⟩ := hne2 hcs0
                    refine ⟨k + 1 + PForest.size cs - 1,
                      spineAux (k + 1) (d + 1) cs ++ [(k, d)], hprev2,
                      by omega, ?_, ?_⟩
                    · rw [List.append_assoc, List.singleton_append]
                      exact hstack2
                    · right
                      refine ⟨spineAux (k + 1) (d + 1) cs, k, rfl, ?_, ?_⟩
                      · intro p hp'
                        have := spineAux_depth (PForest.size cs) cs (k + 1)
                          (d + 1) (Nat.le_refl _) p hp'
                        omega
                      · rw [hpout2 k (by omega)]
                        exact h1pk
          obtain ⟨st₃, hf3, hlp3, hlc3, hpout3, hpin3, hcout3, hcpar3, hcin3,
            hret3, hnil3, hne3⟩ :=
            ih ts (by omega) arr d pp po M (k + 1 + PForest.size cs) st₂
              hts hCpre
          refine ⟨st₃, ?_, ?_, ?_, ?_, ?_, ?_, ?_, ?_, ?_, ?_, ?_⟩
          · show List.foldlM (buildStep arr) st
                (List.range' k (PForest.size (PTree.mk n cs :: ts))) = some st₃
            have hrange : List.range' k (PForest.size (PTree.mk n cs :: ts)) =
                k :: (List.range' (k + 1) (PForest.size cs) ++
                  List.range' (k + 1 + PForest.size cs) (PForest.size ts)) := by
              rw [PForest_size_cons,
                show 1 + PForest.size cs + PForest.size ts =
                  (PForest.size cs + PForest.size ts) + 1 from by omega,
                List.range'_succ]
              congr 1
              have hap := List.range'_append (k + 1) (PForest.size cs)
                (PForest.size ts) 1
              simp only [one_mul] at hap
              rw [Nat.add_comm (PForest.size cs) (PForest.size ts)]
              exact hap.symm
            rw [hrange, List.foldlM_cons, hstep]
            show List.foldlM (buildStep arr) st₁
                (List.range' (k + 1) (PForest.size cs) ++
                  List.range' (k + 1 + PForest.size cs) (PForest.size ts)) =
              some st₃
            rw [List.foldlM_append, hf2]
            show List.foldlM (buildStep arr) st₂
              (List.range' (k + 1 + PForest.size cs) (PForest.size ts)) =
                some st₃
            exact hf3
          · rw [hlp3, hlp2, h1lp, hlp]
          · rw [hlc3, hlc2, h1lc, hlc]
          · intro i hi
            rw [PForest_size_cons] at hi
            rw [hpout3 i (by omega), hpout2 i (by omega),
              h1pout i (by omega)]
          · intro off hoff
            rw [PForest_size_cons] at hoff
            have hspec : PForest.specPidx k po (PTree.mk n cs :: ts) =
                po :: (PForest.specPidx (k + 1) (some k) cs ++
                  PForest.specPidx (k + 1 + PForest.size cs) po ts) := by
              simp [PForest.specPidx]
            rw [hspec]
            cases off with
            | zero =>
              rw [Nat.add_zero, hpout3 k (by omega), hpout2 k (by omega), h1pk]
              rfl
            | succ off =>
              rw [List.get?_cons_succ]
              by_cases hoc : off < PForest.size cs
              · rw [List.get?_append
                  (by rw [PForest_specPidx_length (PForest.size cs) cs _ _
                    (Nat.le_refl _)]; exact hoc)]
                rw [show k + (off + 1) = k + 1 + off from by omega,
                  hpout3 (k + 1 + off) (by omega)]
                exact hpin2 off hoc
              · rw [List.get?_append_right
                  (by rw [PForest_specPidx_length (PForest.size cs) cs _ _
                    (Nat.le_refl _)]; omega)]
                rw [PForest_specPidx_length (PForest.size cs) cs _ _
                  (Nat.le_refl _)]
                rw [show k + (off + 1) =
                  k + 1 + PForest.size cs + (off - PForest.size cs)
                  from by omega]
                rw [hpin3 (off - PForest.size cs) (by omega)]
          · intro i hi hpo
            rw [PForest_size_cons] at hi
            rw [hcout3 i (by omega) hpo, hcout2 i (by omega)
              (by intro hcon; injection hcon with h'; omega),
              h1cout i hpo]
          · intro pi hpo
            have hpik : pi < k := hpok pi hpo
            rw [hcpar3 pi hpo, hcout2 pi (by omega)
              (by intro hcon; injection hcon with h'; omega),
              h1cpar pi hpo]
            cases hv : st.childIdx.get? pi with
            | none => rfl
            | some l =>
              show some ((l ++ [k]) ++ _) = some (l ++ rootIdxs k _)
              rw [List.append_assoc, List.singleton_append]
              rfl
          · intro off hoff
            rw [PForest_size_cons] at hoff
            have hspec : PForest.specCidx k (PTree.mk n cs :: ts) =
                rootIdxs (k + 1) cs :: (PForest.specCidx (k + 1) cs ++
                  PForest.specCidx (k + 1 + PForest.size cs) ts) := by
              simp [PForest.specCidx]
            rw [hspec]
            cases off with
            | zero =>
              rw [Nat.add_zero, hcout3 k (by omega) hponek, hcpar2 k rfl,
                h1cout k hponek, (hunt k (Nat.le_refl k) hklen).2]
              rfl
            | succ off =>
              rw [List.get?_cons_succ]
              by_cases hoc : off < PForest.size cs
              · rw [List.get?_append
                  (by rw [PForest_specCidx_length (PForest.size cs) cs _
                    (Nat.le_refl _)]; exact hoc)]
                rw [show k + (off + 1) = k + 1 + off from by omega,
                  hcout3 (k + 1 + off) (by omega)
                    (by intro hcon; have := hpok _ hcon; omega)]
                exact hcin2 off hoc
              · rw [List.get?_append_right
                  (by rw [PForest_specCidx_length (PForest.size cs) cs _
                    (Nat.le_refl _)]; omega)]
                rw [PForest_specCidx_length (PForest.size cs) cs _
                  (Nat.le_refl _)]
                rw [show k + (off + 1) =
                  k + 1 + PForest.size cs + (off - PForest.size cs)
                  from by omega]
                rw [hcin3 (off - PForest.size cs) (by omega)]
          · rw [hret3, hret2, h1ret]
            cases po with
            | none =>
              show ((st.ret ++ [k]) ++ []) ++ _ = st.ret ++ rootIdxs k _
              rw [List.append_nil, List.append_assoc, List.singleton_append]
              rfl
            | some pi => simp
          · intro hcon
            simp at hcon
          · intro _
            rw [PForest_size_cons]
            cases ts with
            | nil =>
              have hst32 : st₃ = st₂ := hnil3 rfl
              rw [hst32]
              by_cases hcs0 : cs = []
              · subst hcs0
                rw [hnil2 rfl]
                constructor
                · rw [h1prev]
                  congr 2
                  simp [PForest.size]
                · rw [show k + (1 + PForest.size ([] : List PTree) +
                      PForest.size ([] : List PTree)) - 1 = k from by
                    simp [PForest.size]]
                  show Stack arr st₁.parentIdx k
                    (spineAux k d [PTree.mk n []] ++ M)
                  rw [show spineAux k d [PTree.mk n []] = [(k, d)] from by
                    simp [spineAux]]
                  rw [List.singleton_append]
                  exact h1stack
              · obtain ⟨hprev2, hstack2⟩ := hne2 hcs0
                constructor
                · rw [hprev2]
                  congr 2
                  simp [PForest.size]
                  omega
                · rw [show k + (1 + PForest.size cs +
                      PForest.size ([] : List PTree)) - 1 =
                      k + 1 + PForest.size cs - 1 from by
                    simp [PForest.size]; omega]
                  rw [show spineAux k d [PTree.mk n cs] =
                      spineAux (k + 1) (d + 1) cs ++ [(k, d)] from by
                    simp [spineAux]]
                  rw [List.append_assoc, List.singleton_append]
                  exact hstack2
            | cons t' ts' =>
              obtain ⟨hprev3, hstack3⟩ := hne3 (by simp)
              constructor
              · rw [hprev3]
                congr 2
                omega
              · rw [show spineAux k d (PTree.mk n cs :: t' :: ts') =
                    spineAux (k + 1 + PForest.size cs) d (t' :: ts') from by
                  simp [spineAux]]
                rw [show k + (1 + PForest.size cs +
                    PForest.size (t' :: ts')) - 1 =
                    k + 1 + PForest.size cs + PForest.size (t' :: ts') - 1
                    from by omega]
                exact hstack3

/-- C4 (amended): `build_tree_structure` reconstructs the forest exactly
when the path-sorted input is the preorder listing of a well-formed forest
— each node's recorded depth its true tree depth, roots at depth 0, each
child's path extending its tree parent's path (its immediate path prefix)
by the delimiter; the counterexample shows plain ancestor-presence is not
enough, because an unrelated path can sort between a parent and its child.
Then the pass succeeds, returns exactly the depth-0 nodes as roots in
order, and gives every node the forest-prescribed parent and children
list (children in path order).  In particular, on the four-node input
with paths `a`, `a::b`, `a::c`, `a::b::d` it yields one root `a` with
children `[b, c]` in that order, and `b` with child `[d]`. -/
theorem build_tree_structure_forest (qs : List Node) (F : List PTree)
    (hsort : qs.insertionSort pathLeP = PForest.flatten F)
    (hwf : PForest.WF 0 none F) :
    build_tree_structure qs = some (PForest.flatten F,
      { parentIdx := PForest.specPidx 0 none F,
        childIdx := PForest.specCidx 0 F,
        ret := rootIdxs 0 F,
        previous := if PForest.size F = 0 then none
          else some (PForest.size F - 1) }) ∧
    build_tree_structure [cA, cB, cC, cD] = some ([cA, cB, cD, cC],
      { parentIdx := [none, some 0, some 1, some 0],
        childIdx := [[1, 3], [2], [], []],
        ret := [0],
        previous := some 3 }) := by
  refine ⟨?_, by decide⟩
  have hlen : (PForest.flatten F).length = PForest.size F :=
    PForest_flatten_length (PForest.size F) F (Nat.le_refl _)
  have hpre : BuildPre (PForest.flatten F) 0 none [] 0
      ⟨List.replicate (PForest.flatten F).length none,
        List.replicate (PForest.flatten F).length [], [], none⟩ F := by
    refine ⟨?_, ?_, by simp, by simp, ?_, rfl, rfl⟩
    · intro off hoff
      rw [Nat.zero_add]
    · rw [hlen]
      omega
    · intro i h0 hl
      constructor
      · show (List.replicate (PForest.flatten F).length
          (none : Option Nat)).get? i = some none
        rw [List.get?_eq_getElem?, List.getElem?_replicate]
        simp [hl]
      · show (List.replicate (PForest.flatten F).length
          ([] : List Nat)).get? i = some []
        rw [List.get?_eq_getElem?, List.getElem?_replicate]
        simp [hl]
  obtain ⟨⟨sp, scx, sr, sprev⟩, hf, hlp', hlc', hpout, hpin, hcout, hcpar,
    hcin, hret, hnil, hne⟩ :=
    build_master (PForest.size F) F (Nat.le_refl _) (PForest.flatten F) 0
      none none [] 0
      ⟨List.replicate (PForest.flatten F).length none,
        List.replicate (PForest.flatten F).length [], [], none⟩ hwf hpre
  have hplen : sp.length = PForest.size F := by
    have h := hlp'
    simp only [List.length_replicate] at h
    rw [h, hlen]
  have hclen : scx.length = PForest.size F := by
    have h := hlc'
    simp only [List.length_replicate] at h
    rw [h, hlen]
  have hp : sp = PForest.specPidx 0 none F := by
    apply List.ext_getElem?
    intro i
    by_cases hi : i < PForest.size F
    · have h := hpin i hi
      rw [Nat.zero_add] at h
      rw [← List.get?_eq_getElem?, ← List.get?_eq_getElem?]
      exact h
    · rw [List.getElem?_eq_none (by omega),
        List.getElem?_eq_none (by
          rw [PForest_specPidx_length (PForest.size F) F 0 none
            (Nat.le_refl _)]
          omega)]
  have hc : scx = PForest.specCidx 0 F := by
    apply List.ext_getElem?
    intro i
    by_cases hi : i < PForest.size F
    · have h := hcin i hi
      rw [Nat.zero_add] at h
      rw [← List.get?_eq_getElem?, ← List.get?_eq_getElem?]
      exact h
    · rw [List.getElem?_eq_none (by omega),
        List.getElem?_eq_none (by
          rw [PForest_specCidx_length (PForest.size F) F 0 (Nat.le_refl _)]
          omega)]
  have hr : sr = rootIdxs 0 F := by
    simpa using hret
  have hpr : sprev = (if PForest.size F = 0 then none
      else some (PForest.size F - 1)) := by
    cases F with
    | nil =>
      have h := congrArg BuildState.previous (hnil rfl)
      simpa [PForest.size] using h
    | cons t ts =>
      have h := (hne (by simp)).1
      have hpos : PForest.size (t :: ts) ≠ 0 := by
        cases t with
        | mk n cs =>
          rw [PForest_size_cons]
          omega
      rw [if_neg hpos]
      simpa using h
  show build_tree_structure qs = _
  simp only [build_tree_structure]
  simp only [hsort]
  have hrange0 : List.range (PForest.flatten F).length =
      List.range' 0 (PForest.size F) := by
    rw [hlen, List.range_eq_range']
  have hfold : (List.range (PForest.flatten F).length).foldlM
      (buildStep (PForest.flatten F))
      ⟨List.replicate (PForest.flatten F).length none,
        List.replicate (PForest.flatten F).length [], [], none⟩ =
      some (⟨sp, scx, sr, sprev⟩ : BuildState) := by
    rw [hrange0]
    exact hf
  simp only [hfold, Option.map_some]
  subst hp
  subst hc
  subst hr
  subst hpr
  rfl

/-- The four-row store `a`, `a::b`, `a::c`, `a::b::d` as a forest: one
root `a` with children `b` (which has child `d`) and `c`. -/
def cForest : List PTree :=
  [PTree.mk cA [PTree.mk cB [PTree.mk cD []], PTree.mk cC []]]

/-- Witness for C4 (amended) at the four-node input: the claim's own
example store, resolved through the forest `cForest`. -/
theorem build_tree_structure_forest_witness :
    build_tree_structure [cA, cB, cC, cD] =
      some (PForest.flatten cForest,
        { parentIdx := PForest.specPidx 0 none cForest,
          childIdx := PForest.specCidx 0 cForest,
          ret := rootIdxs 0 cForest,
          previous := if PForest.size cForest = 0 then none
            else some (PForest.size cForest - 1) }) ∧
    build_tree_structure [cA, cB, cC, cD] = some ([cA, cB, cD, cC],
      { parentIdx := [none, some 0, some 1, some 0],
        childIdx := [[1, 3], [2], [], []],
        ret := [0],
        previous := some 3 }) :=
  build_tree_structure_forest [cA, cB, cC, cD] cForest
    (by simp only [cForest, PForest.flatten]; decide)
    (by
      refine PForest.WF.cons 0 none cA
        [PTree.mk cB [PTree.mk cD []], PTree.mk cC []] []
        (by decide) (fun _ => rfl) (fun q hq => nomatch hq) ?_
        (PForest.WF.nil 0 none)
      refine PForest.WF.cons 1 (some cA.path) cB [PTree.mk cD []]
        [PTree.mk cC []] (by decide) (fun h => nomatch h) ?_ ?_ ?_
      · intro q hq
        injection hq with h'
        subst h'
        exact ⟨"b", by decide⟩
      · refine PForest.WF.cons 2 (some cB.path) cD [] []
          (by decide) (fun h => nomatch h) ?_
          (PForest.WF.nil 3 (some cD.path)) (PForest.WF.nil 2 (some cB.path))
        intro q hq
        injection hq with h'
        subst h'
        exact ⟨"d", by decide⟩
      · refine PForest.WF.cons 1 (some cA.path) cC [] []
          (by decide) (fun h => nomatch h) ?_
          (PForest.WF.nil 2 (some cC.path)) (PForest.WF.nil 1 (some cA.path))
        intro q hq
        injection hq with h'
        subst h'
        exact ⟨"c", by decide⟩)
